import Mathlib

/-!
# PECache: a priority / expiry cache over intrusive circular lists

A shallow embedding of `src/source.cpp`.

* The C++ free store is a list of cells addressed by their index; a cell is
  `some item` while the `Item` is allocated and `none` once it was deleted.
  `new` appends a cell, so an address is never handed out twice.
* `Item*` fields (`prev`, `next`) are `Option Nat`, `none` being `nullptr`.
* The three maps are association lists with the `std::map` operations the
  source uses: `find`/`at`, `insert` (which leaves an existing key alone),
  `erase` and `begin` (the entry with the smallest key).
* Every operation returns `Except Fault _`: a dereference of `nullptr` or of
  a deleted `Item`, a second `delete`, `map::at` on a missing key, a failed
  `assert` and `*begin()` of an empty map are reported as a `Fault`.
-/

/-- Pointer to an `Item`; `none` is `nullptr`. -/
abbrev Ptr := Option Nat

/-- The `Item` struct of the source (lines 10-17). -/
structure Item where
  key : String
  value : Int
  priority : Int
  expireTime : Int
  prev : Ptr
  next : Ptr
deriving DecidableEq, Repr

/-- Ways in which an operation of the source can leave defined behaviour. -/
inductive Fault where
  | nullDeref
  | danglingDeref
  | doubleFree
  | outOfRange
  | assertFail
  | endDeref
  | outOfFuel
deriving DecidableEq, Repr

deriving instance DecidableEq for Except

/-- The free store: cell `a` is `some item` while allocated, `none` after `delete`. -/
abbrev Heap := List (Option Item)

/-- The `PECache` class of the source (lines 21-34); `TIME_LIMIT` is its static member. -/
structure PECache where
  TIME_LIMIT : Int
  maxCapacity : Int
  heap : Heap
  mItems : List (String × Nat)
  mExpireItems : List (Int × Nat)
  mPriorityItems : List (Int × Nat)
deriving DecidableEq, Repr

namespace PECache

/-- The value of `INT_MAX`, the initial `TIME_LIMIT` (line 240). -/
def INT_MAX : Int := 2147483647

/-! ## The free store -/

/-- The allocated `Item` at an address, if there is one. -/
def cell (h : Heap) (a : Nat) : Option Item :=
  match h[a]? with
  | some (some it) => some it
  | _ => none

/-- Read the `Item` a pointer refers to. -/
def load (h : Heap) (p : Ptr) : Except Fault Item :=
  match p with
  | none => .error .nullDeref
  | some a =>
    match cell h a with
    | some it => .ok it
    | none => .error .danglingDeref

/-- Overwrite fields of the `Item` a pointer refers to. -/
def store (h : Heap) (p : Ptr) (f : Item → Item) : Except Fault Heap :=
  match p with
  | none => .error .nullDeref
  | some a =>
    match cell h a with
    | some it => .ok (h.set a (some (f it)))
    | none => .error .danglingDeref

/-- The `delete` expression on a non-null pointer. -/
def free (h : Heap) (a : Nat) : Except Fault Heap :=
  match cell h a with
  | some _ => .ok (h.set a none)
  | none => .error .doubleFree

/-- The assignment `p->next = q`. -/
def setNext (h : Heap) (p q : Ptr) : Except Fault Heap :=
  store h p (fun it => { it with next := q })

/-- The assignment `p->prev = q`. -/
def setPrev (h : Heap) (p q : Ptr) : Except Fault Heap :=
  store h p (fun it => { it with prev := q })

/-! ## The maps -/

/-- The lookup `m.find(k)`: `none` stands for `m.end()`. -/
def map_find {κ : Type} [DecidableEq κ] : List (κ × Nat) → κ → Option Nat
  | [], _ => none
  | (k1, v) :: r, k => if k1 = k then some v else map_find r k

/-- The call `m.insert({k, v})`: nothing happens when `k` is already a key. -/
def map_insert {κ : Type} [DecidableEq κ] (m : List (κ × Nat)) (k : κ) (v : Nat) :
    List (κ × Nat) :=
  match map_find m k with
  | some _ => m
  | none => m ++ [(k, v)]

/-- The call `m.erase(k)`. -/
def map_erase {κ : Type} [DecidableEq κ] (m : List (κ × Nat)) (k : κ) : List (κ × Nat) :=
  m.filter (fun e => decide (e.1 ≠ k))

/-- The call `m.at(k)`, which throws `std::out_of_range` on a missing key. -/
def map_at (m : List (Int × Nat)) (k : Int) : Except Fault Nat :=
  match map_find m k with
  | some v => .ok v
  | none => .error .outOfRange

/-- The iterator `m.begin()` of an ordered map: the entry with the smallest key. -/
def map_begin : List (Int × Nat) → Option (Int × Nat)
  | [] => none
  | e :: r =>
    match map_begin r with
    | none => some e
    | some m => if e.1 ≤ m.1 then some e else some m

/-! ## The private list operations -/

/-- Source lines 36-51. -/
def list_rebuild (c : PECache) (key : Int) (oldItem : Nat) : Except Fault PECache := do
  let head ← map_at c.mPriorityItems key
  let tail := (← load c.heap (some head)).prev
  -- break the old link
  let o1 ← load c.heap (some oldItem)
  let h1 ← setNext c.heap o1.prev o1.next
  let o2 ← load h1 (some oldItem)
  let h2 ← setPrev h1 o2.next o2.prev
  -- move the item to the end
  let h3 ← setNext h2 tail (some oldItem)
  let h4 ← setPrev h3 (some oldItem) tail
  let h5 ← setNext h4 (some oldItem) (some head)
  let h6 ← setPrev h5 (some head) (some oldItem)
  pure { c with heap := h6 }

/-- Source lines 53-63. -/
def list_insert (c : PECache) (key : Int) (newItem : Nat) : Except Fault PECache := do
  let head ← map_at c.mPriorityItems key
  let tail := (← load c.heap (some head)).prev
  let h1 ← setNext c.heap tail (some newItem)
  let h2 ← setPrev h1 (some newItem) tail
  let h3 ← setNext h2 (some newItem) (some head)
  let h4 ← setPrev h3 (some head) (some newItem)
  pure { c with heap := h4 }

/-- Source lines 65-83. -/
def list_remove (c : PECache) (key : Int) (oldItem : Nat) : Except Fault PECache := do
  let head ← map_at c.mPriorityItems key
  let hd ← load c.heap (some head)
  if hd.next = some head then
    -- the last item, just delete the list
    if head = oldItem then
      let h1 ← free c.heap head
      pure { c with mPriorityItems := map_erase c.mPriorityItems key, heap := h1 }
    else
      throw .assertFail
  else
    -- break the old link
    let o1 ← load c.heap (some oldItem)
    let h1 ← setNext c.heap o1.prev o1.next
    let o2 ← load h1 (some oldItem)
    let h2 ← setPrev h1 o2.next o2.prev
    let h3 ← setPrev h2 (some oldItem) none
    let h4 ← setNext h3 (some oldItem) none
    pure { c with heap := h4 }

/-- Source lines 85-106. -/
def list_push_back (c : PECache) (key : Int) (newItem : Nat) : Except Fault PECache :=
  match map_find c.mPriorityItems key with
  | none => do
    -- new list
    let h1 ← setNext c.heap (some newItem) (some newItem)
    let h2 ← setPrev h1 (some newItem) (some newItem)
    pure { c with mPriorityItems := map_insert c.mPriorityItems key newItem, heap := h2 }
  | some head => do
    let tail := (← load c.heap (some head)).prev
    -- move the item to the end
    let h1 ← setNext c.heap tail (some newItem)
    let h2 ← setPrev h1 (some newItem) tail
    let h3 ← setNext h2 (some newItem) (some head)
    let h4 ← setPrev h3 (some head) (some newItem)
    pure { c with heap := h4 }

/-! ## The public operations -/

/-- The constructor `PECache(int capacity)` (lines 109-111), with `TIME_LIMIT` at its
initial value. -/
def new (capacity : Int) : PECache :=
  { TIME_LIMIT := INT_MAX, maxCapacity := capacity, heap := [],
    mItems := [], mExpireItems := [], mPriorityItems := [] }

/-- An assignment to the static member `PECache::TIME_LIMIT`. -/
def setTimeLimit (c : PECache) (t : Int) : PECache :=
  { c with TIME_LIMIT := t }

/-- The number of cached records, `mItems.size()`. -/
def size (c : PECache) : Nat := c.mItems.length

/-- Source lines 113-124: the returned pointer is `none` (`nullptr`) on a miss. -/
def get (c : PECache) (key : String) : Except Fault (PECache × Ptr) :=
  match map_find c.mItems key with
  | none => pure (c, none)
  | some item => do
    let it ← load c.heap (some item)
    -- make it most recently used
    let c1 ← list_rebuild c it.priority item
    pure (c1, some item)

/-- Source lines 126-158, on a pointer to an allocated `Item`. -/
def set (c : PECache) (item : Nat) : Except Fault PECache := do
  let it ← load c.heap (some item)
  match map_find c.mItems it.key with
  | some oldItem =>
    let old ← load c.heap (some oldItem)
    if old.expireTime = it.expireTime ∧ old.priority = it.priority then
      -- no data update, just update the priority list
      list_rebuild c old.priority oldItem
    else
      let m1 := if old.expireTime ≠ it.expireTime then
        map_erase c.mExpireItems old.expireTime else c.mExpireItems
      -- update the expire time map
      let h1 ← store c.heap (some oldItem) (fun o => { o with expireTime := it.expireTime })
      let it1 ← load h1 (some item)
      let c1 := { c with heap := h1, mExpireItems := map_insert m1 it1.expireTime oldItem }
      let old1 ← load h1 (some oldItem)
      if old1.priority ≠ it1.priority then
        let c2 ← list_remove c1 old1.priority oldItem
        let it2 ← load c2.heap (some item)
        let h3 ← store c2.heap (some oldItem) (fun o => { o with priority := it2.priority })
        let old3 ← load h3 (some oldItem)
        list_insert { c2 with heap := h3 } old3.priority oldItem
      else
        list_rebuild c1 old1.priority oldItem
  | none =>
    let c1 ← list_push_back c it.priority item
    let it1 ← load c1.heap (some item)
    pure { c1 with
      mItems := map_insert c1.mItems it1.key item,
      mExpireItems := map_insert c1.mExpireItems it1.expireTime item }

/-- The expression `new Item{key, value, priority, expireTime}` (lines 16, 246-250):
the fresh cell is the next index of the free store. -/
def new_Item (c : PECache) (key : String) (value priority expireTime : Int) : PECache × Nat :=
  ({ c with heap := c.heap ++ [some ⟨key, value, priority, expireTime, none, none⟩] },
    c.heap.length)

/-- The call `set(new Item{key, value, priority, expireTime})`, as `main` makes it. -/
def set_new (c : PECache) (key : String) (value priority expireTime : Int) :
    Except Fault PECache :=
  set (new_Item c key value priority expireTime).1 (new_Item c key value priority expireTime).2

/-- Source lines 165-175: the record the eviction loop picks. -/
def select_victim (c : PECache) : Except Fault Nat :=
  match map_begin c.mExpireItems with
  | none => .error .endDeref
  | some (t, a) =>
    -- some item expired
    if t ≤ c.TIME_LIMIT then .ok a
    else
      -- delete the lowest priority and least recently used item
      match map_begin c.mPriorityItems with
      | none => .error .endDeref
      | some (_, a2) => .ok a2

/-- Source lines 177-184: the removal of the picked record from the three maps. -/
def evict (c : PECache) (expiredItem : Nat) : Except Fault PECache := do
  let e1 ← load c.heap (some expiredItem)
  let c1 := { c with mItems := map_erase c.mItems e1.key }
  let c2 := { c1 with mExpireItems := map_erase c1.mExpireItems e1.expireTime }
  let c3 ← list_remove c2 e1.priority expiredItem
  -- delete the invalid item
  let h ← free c3.heap expiredItem
  pure { c3 with heap := h }

/-- The conversion of the `int` argument in `mItems.size() > capacity` (line 164) to
the 64-bit unsigned type of `size()`. -/
def to_size_t (capacity : Int) : Int := capacity % 2 ^ 64

/-- The `while` loop of lines 164-185. Each completed round deletes one allocated
`Item`, so the number of rounds is bounded by the number of cells. -/
def set_capacity_loop : Nat → PECache → Int → Except Fault PECache
  | 0, _, _ => .error .outOfFuel
  | fuel + 1, c, capacity =>
    if (c.mItems.length : Int) > to_size_t capacity then do
      let v ← select_victim c
      let c1 ← evict c v
      set_capacity_loop fuel c1 capacity
    else pure c

/-- Source lines 160-188. -/
def set_capacity (c : PECache) (capacity : Int) : Except Fault PECache := do
  let c1 ← if capacity < c.maxCapacity then
      set_capacity_loop (c.heap.length + 1) c capacity
    else pure c
  pure { c1 with maxCapacity := capacity }

/-- Source lines 190-197: every `Item` of `mItems` is deleted; the maps are not touched. -/
def empty (c : PECache) : Except Fault PECache := do
  let h ← c.mItems.foldlM (fun h e => free h e.2) c.heap
  pure { c with heap := h }

/-- The traversal `do ... index = index->next; while (index != head)` of `print`
(lines 231-235), returning the visited records in order. -/
def ring_walk (h : Heap) (head : Nat) : Nat → Nat → Except Fault (List Nat)
  | 0, _ => .error .outOfFuel
  | fuel + 1, index => do
    let it ← load h (some index)
    match it.next with
    | none => .error .nullDeref
    | some nxt =>
      if nxt = head then pure [index]
      else do
        let rest ← ring_walk h head fuel nxt
        pure (index :: rest)

/-! ## Observations on a state

The definitions below are not in the source; they are the vocabulary in which the
properties are stated. -/

/-- The payload of an `Item`: everything but its two links. -/
def Item_data (it : Item) : String × Int × Int × Int :=
  (it.key, it.value, it.priority, it.expireTime)

/-- Payload of the record allocated at `a`. -/
def dataOf (h : Heap) (a : Nat) : Option (String × Int × Int × Int) :=
  (cell h a).map Item_data

/-- The field `prev` of the record allocated at `a`. -/
def prevOf (h : Heap) (a : Nat) : Option Ptr := (cell h a).map Item.prev

/-- The field `next` of the record allocated at `a`. -/
def nextOf (h : Heap) (a : Nat) : Option Ptr := (cell h a).map Item.next

/-- The field `expireTime` of the record allocated at `a`. -/
def expireOf (h : Heap) (a : Nat) : Option Int := (cell h a).map Item.expireTime

/-- Address `a` holds an allocated record. -/
def live (h : Heap) (a : Nat) : Bool := (cell h a).isSome

/-- What `p->next = q` does to the free store. -/
def NextSet (h h1 : Heap) (a : Nat) (q : Ptr) : Prop :=
  h1.length = h.length ∧ ∀ b, dataOf h1 b = dataOf h b ∧ prevOf h1 b = prevOf h b ∧
    nextOf h1 b = if a = b then some q else nextOf h b

/-- What `p->prev = q` does to the free store. -/
def PrevSet (h h1 : Heap) (a : Nat) (q : Ptr) : Prop :=
  h1.length = h.length ∧ ∀ b, dataOf h1 b = dataOf h b ∧ nextOf h1 b = nextOf h b ∧
    prevOf h1 b = if a = b then some q else prevOf h b

/-- The record at `a` is allocated and its `prev` points to an allocated record. -/
def prev_live (h : Heap) (a : Nat) : Bool :=
  match prevOf h a with
  | some (some t) => live h t
  | _ => false

/-- The record at `a` is allocated and its `next` points to an allocated record. -/
def next_live (h : Heap) (a : Nat) : Bool :=
  match nextOf h a with
  | some (some t) => live h t
  | _ => false

/-- What `list_push_back` dereferences is allocated: when the priority has a ring, its
anchor and the anchor's `prev`. -/
def push_ready (c : PECache) (priority : Int) : Bool :=
  match map_find c.mPriorityItems priority with
  | none => true
  | some head => prev_live c.heap head

/-- What `list_rebuild` dereferences is allocated: the priority has a ring, and the
anchor's `prev` and the record's `prev` and `next` point to allocated records. -/
def touch_ready (c : PECache) (priority : Int) (a : Nat) : Bool :=
  match map_find c.mPriorityItems priority with
  | none => false
  | some head => prev_live c.heap head && prev_live c.heap a && next_live c.heap a

/-- What the unlinking branch of `list_remove` needs: the priority has a ring whose anchor
is allocated and not linked to itself, and the record's `prev` and `next` point to
allocated records. -/
def unlink_ready (c : PECache) (priority : Int) (a : Nat) : Bool :=
  match map_find c.mPriorityItems priority with
  | none => false
  | some head =>
    (match nextOf c.heap head with
      | some q => decide (q ≠ some head)
      | none => false) && prev_live c.heap a && next_live c.heap a

/-- The record at `a` counts as expired: `expireTime <= TIME_LIMIT` (line 168). -/
def expired (c : PECache) (a : Nat) : Bool :=
  match expireOf c.heap a with
  | some t => decide (t ≤ c.TIME_LIMIT)
  | none => false

/-- A caller of `get` reading `->value` through the returned pointer; `none` is the
miss (`nullptr`). -/
def get_value (c : PECache) (key : String) : Except Fault (PECache × Option Int) := do
  let r ← get c key
  match r.2 with
  | none => pure (r.1, none)
  | some a =>
    let it ← load r.1.heap (some a)
    pure (r.1, some it.value)

/-- The calls a client can make. -/
inductive Op where
  | get (key : String)
  | set (key : String) (value priority expireTime : Int)
  | set_capacity (capacity : Int)
  | empty
deriving DecidableEq, Repr

/-- One client call. -/
def step (c : PECache) : Op → Except Fault PECache
  | .get key => (get c key).map Prod.fst
  | .set key value priority expireTime => set_new c key value priority expireTime
  | .set_capacity capacity => set_capacity c capacity
  | .empty => empty c

/-- A sequence of client calls, stopping at the first fault. -/
def run (c : PECache) : List Op → Except Fault PECache
  | [] => pure c
  | op :: rest => do
    let c1 ← step c op
    run c1 rest

/-- The five `set` calls of `main` (lines 246-250). -/
def main_sets : List Op :=
  [.set "A" 12 5 11, .set "B" 12 4 12, .set "C" 12 5 13, .set "D" 12 5 14, .set "E" 12 6 15]

/-- The state `main` reaches after its five `set` calls, for a given capacity and
`TIME_LIMIT`. -/
def main_state (capacity limit : Int) : PECache :=
  { TIME_LIMIT := limit, maxCapacity := capacity,
    heap := [some ⟨"A", 12, 5, 11, some 3, some 2⟩, some ⟨"B", 12, 4, 12, some 1, some 1⟩,
      some ⟨"C", 12, 5, 13, some 0, some 3⟩, some ⟨"D", 12, 5, 14, some 2, some 0⟩,
      some ⟨"E", 12, 6, 15, some 4, some 4⟩],
    mItems := [("A", 0), ("B", 1), ("C", 2), ("D", 3), ("E", 4)],
    mExpireItems := [(11, 0), (12, 1), (13, 2), (14, 3), (15, 4)],
    mPriorityItems := [(5, 0), (4, 1), (6, 4)] }

/-- The state `set_capacity(4)` leaves when called in `main_state 5 INT_MAX`: `A` is gone
from the Key Index and the Expiry Index and its cell is deleted. -/
def main_state_without_A : PECache :=
  { TIME_LIMIT := INT_MAX, maxCapacity := 4,
    heap := [none, some ⟨"B", 12, 4, 12, some 1, some 1⟩,
      some ⟨"C", 12, 5, 13, some 3, some 3⟩, some ⟨"D", 12, 5, 14, some 2, some 2⟩,
      some ⟨"E", 12, 6, 15, some 4, some 4⟩],
    mItems := [("B", 1), ("C", 2), ("D", 3), ("E", 4)],
    mExpireItems := [(12, 1), (13, 2), (14, 3), (15, 4)],
    mPriorityItems := [(5, 0), (4, 1), (6, 4)] }

/-- The members of a priority ring as `print` lists them: from the anchor along `next`
until the anchor comes up again. -/
def ring (c : PECache) (priority : Int) : Except Fault (List Nat) := do
  let head ← map_at c.mPriorityItems priority
  ring_walk c.heap head c.heap.length head

/-- The records of the Key Index that carry a given priority. -/
def cached_at (c : PECache) (priority : Int) : List Nat :=
  (c.mItems.filter (fun kv => (cell c.heap kv.2).map Item.priority = some priority)).map
    Prod.snd

/-- Number of allocated records. -/
def live_count (h : Heap) : Nat := h.countP (fun x => x.isSome)

/-- What `list_insert` dereferences is allocated: the priority has a ring whose anchor is
another record and the anchor's `prev` points to an allocated record. -/
def insert_ready (c : PECache) (priority : Int) (a : Nat) : Bool :=
  match map_find c.mPriorityItems priority with
  | none => false
  | some head => decide (head ≠ a) && prev_live c.heap head

/-- What a `set` of a cached key with a new `expireTime` dereferences is allocated: with
the priority unchanged the links of `list_rebuild`, with a new priority those of the
unlinking branch of `list_remove` and of `list_insert`. -/
def upsert_ready (c : PECache) (oldPriority priority : Int) (a : Nat) : Bool :=
  if oldPriority = priority then touch_ready c priority a
  else unlink_ready c oldPriority a && insert_ready c priority a

/-- Every record allocated in `h` is allocated in `h1` with the same links. -/
def LinksKept (h h1 : Heap) : Prop :=
  ∀ b, live h b = true →
    live h1 b = true ∧ prevOf h1 b = prevOf h b ∧ nextOf h1 b = nextOf h b

/-- The record `y` is the ring successor of `x`: `x->next == y` and `y->prev == x`. -/
def linked (h : Heap) (x y : Nat) : Bool :=
  decide (nextOf h x = some (some y)) && decide (prevOf h y = some (some x))

/-- The records `x, l` are linked in this order and the last of them is linked to `z`. -/
def ring_chain (h : Heap) : Nat → List Nat → Nat → Bool
  | x, [], z => linked h x z
  | x, y :: r, z => linked h x y && ring_chain h y r z

/-- A well-formed ring: the anchor `head` and the further members `rest`, all different,
are linked in this order in both directions and the last member is linked back to the
anchor. -/
def is_ring (h : Heap) (head : Nat) (rest : List Nat) : Bool :=
  decide (head :: rest).Nodup && ring_chain h head rest head

/-- The field `priority` of the record allocated at `a`. -/
def priority_of (h : Heap) (a : Nat) : Option Int := (cell h a).map Item.priority

/-- The allocated records of a priority, in the order of their allocation. -/
def priority_members (c : PECache) (p : Int) : List Nat :=
  (List.range c.heap.length).filter (fun i => decide (priority_of c.heap i = some p))

/-- The ring of a priority holds the records of that priority in the order of their
allocation: no directory entry when there is none, otherwise the anchor is the first of
them and the ring is well formed in that order. -/
def ring_in_order (c : PECache) (p : Int) : Bool :=
  match priority_members c p with
  | [] => decide (map_find c.mPriorityItems p = none)
  | head :: rest => decide (map_find c.mPriorityItems p = some head) && is_ring c.heap head rest

/-- A list of `(key, value, priority, expireTime)` as a list of `set` calls. -/
def sets_ops (sets : List (String × Int × Int × Int)) : List Op :=
  sets.map (fun s => Op.set s.1 s.2.1 s.2.2.1 s.2.2.2)

/-- The state reached with `TIME_LIMIT = 11` from the empty cache of capacity 5 by
`set(X,12,5,11)`, `set(Y,12,5,11)`, `set(Z,12,5,30)`, `set(Y,12,5,12)`, `set(W,12,1,40)`,
`set(V,12,1,41)`: the second call collides with `X` on 11 and gets no Expiry Index entry,
the fourth erases the entry under 11, which is the one of `X`. Cell 3 is the unreferenced
`Item` of the fourth call. -/
def expiry_lost_state : PECache :=
  { TIME_LIMIT := 11, maxCapacity := 5,
    heap := [some ⟨"X", 12, 5, 11, some 1, some 2⟩, some ⟨"Y", 12, 5, 12, some 2, some 0⟩,
      some ⟨"Z", 12, 5, 30, some 0, some 1⟩, some ⟨"Y", 12, 5, 12, none, none⟩,
      some ⟨"W", 12, 1, 40, some 5, some 5⟩, some ⟨"V", 12, 1, 41, some 4, some 4⟩],
    mItems := [("X", 0), ("Y", 1), ("Z", 2), ("W", 4), ("V", 5)],
    mExpireItems := [(30, 2), (12, 1), (40, 4), (41, 5)],
    mPriorityItems := [(5, 0), (1, 4)] }

/-! ## The free store and the maps: basic facts -/

theorem ok_bind {ε α β : Type} (x : α) (f : α → Except ε β) :
    (Except.ok x >>= f) = f x := rfl

theorem load_of_cell {h : Heap} {a : Nat} {it : Item} (hc : cell h a = some it) :
    load h (some a) = .ok it := by
  simp [load, hc]

theorem cell_lt {h : Heap} {a : Nat} {it : Item} (hc : cell h a = some it) : a < h.length := by
  unfold cell at hc
  split at hc
  · rename_i heq
    exact (List.getElem?_eq_some.mp heq).1
  · cases hc

theorem cell_set (h : Heap) (a b : Nat) (v : Option Item) (ha : a < h.length) :
    cell (h.set a v) b = if a = b then v else cell h b := by
  unfold cell
  by_cases hab : a = b
  · subst hab
    simp [List.getElem?_set_self ha]
    cases v <;> simp
  · simp [List.getElem?_set_ne hab, hab]

theorem live_iff {h : Heap} {a : Nat} : live h a = true ↔ ∃ it, cell h a = some it := by
  simp [live, Option.isSome_iff_exists]

theorem setNext_ok {h : Heap} {a : Nat} (q : Ptr) (hl : live h a = true) :
    ∃ h1, setNext h (some a) q = .ok h1 ∧ NextSet h h1 a q := by
  obtain ⟨it, hc⟩ := live_iff.mp hl
  refine ⟨h.set a (some { it with next := q }), by simp [setNext, store, hc], by simp, ?_⟩
  intro b
  simp only [dataOf, prevOf, nextOf, cell_set h a b _ (cell_lt hc)]
  by_cases hab : a = b
  · subst hab; simp [hc, Item_data]
  · simp [hab]

theorem setPrev_ok {h : Heap} {a : Nat} (q : Ptr) (hl : live h a = true) :
    ∃ h1, setPrev h (some a) q = .ok h1 ∧ PrevSet h h1 a q := by
  obtain ⟨it, hc⟩ := live_iff.mp hl
  refine ⟨h.set a (some { it with prev := q }), by simp [setPrev, store, hc], by simp, ?_⟩
  intro b
  simp only [dataOf, prevOf, nextOf, cell_set h a b _ (cell_lt hc)]
  by_cases hab : a = b
  · subst hab; simp [hc, Item_data]
  · simp [hab]

theorem live_of_data {h h1 : Heap} {b : Nat} (hd : dataOf h1 b = dataOf h b) :
    live h1 b = live h b := by
  simp only [dataOf] at hd
  simp only [live]
  cases h1c : cell h1 b <;> cases hc : cell h b <;> simp_all

theorem nextSet_live {h h1 : Heap} {a : Nat} {q : Ptr} (hs : NextSet h h1 a q) (b : Nat) :
    live h1 b = live h b := live_of_data (hs.2 b).1

theorem prevSet_live {h h1 : Heap} {a : Nat} {q : Ptr} (hs : PrevSet h h1 a q) (b : Nat) :
    live h1 b = live h b := live_of_data (hs.2 b).1

theorem load_prev {h : Heap} {a : Nat} {p : Ptr} (hp : prevOf h a = some p) :
    ∃ it, load h (some a) = .ok it ∧ it.prev = p ∧ cell h a = some it := by
  simp only [prevOf] at hp
  cases hc : cell h a with
  | none => simp [hc] at hp
  | some it =>
    simp [hc] at hp
    exact ⟨it, load_of_cell hc, hp, rfl⟩

theorem prevOf_cell {h : Heap} {a : Nat} {it : Item} (hc : cell h a = some it) :
    prevOf h a = some it.prev := by simp [prevOf, hc]

theorem nextOf_cell {h : Heap} {a : Nat} {it : Item} (hc : cell h a = some it) :
    nextOf h a = some it.next := by simp [nextOf, hc]

theorem cell_of_links {h : Heap} {a : Nat} {p q : Ptr} (hp : prevOf h a = some p)
    (hq : nextOf h a = some q) : ∃ it, cell h a = some it ∧ it.prev = p ∧ it.next = q := by
  simp only [prevOf, nextOf] at hp hq
  cases hc : cell h a with
  | none => simp [hc] at hp
  | some it =>
    simp [hc] at hp hq
    exact ⟨it, rfl, hp, hq⟩

theorem live_of_prevOf {h : Heap} {a : Nat} {p : Ptr} (hp : prevOf h a = some p) :
    live h a = true := by
  obtain ⟨it, _, _, hc⟩ := load_prev hp
  simp [live, hc]

/-- Success and effect of `list_rebuild` when the links it follows are allocated. -/
theorem list_rebuild_ok {c : PECache} {key : Int} {a head t x y : Nat}
    (hhead : map_find c.mPriorityItems key = some head)
    (hhp : prevOf c.heap head = some (some t)) (ht : live c.heap t = true)
    (hap : prevOf c.heap a = some (some x)) (han : nextOf c.heap a = some (some y))
    (hx : live c.heap x = true) (hy : live c.heap y = true) :
    ∃ h6, list_rebuild c key a = .ok { c with heap := h6 } ∧ h6.length = c.heap.length ∧
      (∀ b, dataOf h6 b = dataOf c.heap b) ∧
      prevOf h6 head = some (some a) ∧ nextOf h6 a = some (some head) ∧
      (prevOf h6 a = some (some t) ∨ prevOf h6 a = some (some a)) := by
  obtain ⟨hd, hhd, hdp, hhdc⟩ := load_prev hhp
  obtain ⟨o, hoc, hop, hon⟩ := cell_of_links hap han
  obtain ⟨h1, e1, s1⟩ := setNext_ok (some y) hx
  have ha1p : prevOf h1 a = some (some x) := by rw [(s1.2 a).2.1, hap]
  have ha1n : nextOf h1 a = some (some y) := by
    rw [(s1.2 a).2.2, han]; simp
  obtain ⟨o2, ho2c, ho2p, ho2n⟩ := cell_of_links ha1p ha1n
  obtain ⟨h2, e2, s2⟩ := setPrev_ok (some x) ((nextSet_live s1 y).trans hy)
  obtain ⟨h3, e3, s3⟩ := setNext_ok (some a) ((prevSet_live s2 t).trans ((nextSet_live s1 t).trans ht))
  have hal : live c.heap a = true := live_of_prevOf hap
  have hhl : live c.heap head = true := live_of_prevOf hhp
  obtain ⟨h4, e4, s4⟩ := setPrev_ok (some t)
    ((nextSet_live s3 a).trans ((prevSet_live s2 a).trans ((nextSet_live s1 a).trans hal)))
  obtain ⟨h5, e5, s5⟩ := setNext_ok (some head) ((prevSet_live s4 a).trans
    ((nextSet_live s3 a).trans ((prevSet_live s2 a).trans ((nextSet_live s1 a).trans hal))))
  obtain ⟨h6, e6, s6⟩ := setPrev_ok (some a) ((nextSet_live s5 head).trans ((prevSet_live s4 head).trans
    ((nextSet_live s3 head).trans ((prevSet_live s2 head).trans ((nextSet_live s1 head).trans hhl)))))
  refine ⟨h6, ?_, ?_, ?_, ?_, ?_, ?_⟩
  · simp only [list_rebuild, map_at, hhead, ok_bind, hhd, load_of_cell hoc, hop, hon, e1,
      load_of_cell ho2c, ho2p, ho2n, e2, hdp, e3, e4, e5, e6]
    rfl
  · rw [s6.1, s5.1, s4.1, s3.1, s2.1, s1.1]
  · intro b
    rw [(s6.2 b).1, (s5.2 b).1, (s4.2 b).1, (s3.2 b).1, (s2.2 b).1, (s1.2 b).1]
  · rw [(s6.2 head).2.2]; simp
  · rw [(s6.2 a).2.1, (s5.2 a).2.2]; simp
  · rw [(s6.2 a).2.2]
    by_cases hha : head = a
    · right; simp [hha]
    · left
      rw [if_neg hha, (s5.2 a).2.1, (s4.2 a).2.2]; simp

theorem prev_live_iff {h : Heap} {a : Nat} :
    prev_live h a = true ↔ ∃ t, prevOf h a = some (some t) ∧ live h t = true := by
  unfold prev_live
  split
  · rename_i t heq
    simp [heq]
  · rename_i hne
    constructor
    · intro hf; cases hf
    · rintro ⟨t, ht, _⟩
      exact absurd ht (hne t)

theorem next_live_iff {h : Heap} {a : Nat} :
    next_live h a = true ↔ ∃ t, nextOf h a = some (some t) ∧ live h t = true := by
  unfold next_live
  split
  · rename_i t heq
    simp [heq]
  · rename_i hne
    constructor
    · intro hf; cases hf
    · rintro ⟨t, ht, _⟩
      exact absurd ht (hne t)

theorem map_find_insert_self {κ : Type} [DecidableEq κ] (m : List (κ × Nat)) (k : κ) (v : Nat)
    (hm : map_find m k = none) : map_find (map_insert m k v) k = some v := by
  simp only [map_insert, hm]
  induction m with
  | nil => simp [map_find]
  | cons e r ih =>
    obtain ⟨k1, v1⟩ := e
    simp only [map_find] at hm
    by_cases hk : k1 = k
    · simp [hk] at hm
    · simp only [hk, if_false] at hm
      simp [map_find, hk, ih hm]

theorem cell_append (h : Heap) (v : Option Item) (b : Nat) :
    cell (h ++ [v]) b = if b = h.length then v else cell h b := by
  unfold cell
  by_cases hb : b = h.length
  · subst hb
    simp
    cases v <;> simp
  · simp only [hb, if_false]
    rcases Nat.lt_or_gt_of_ne hb with hlt | hgt
    · rw [List.getElem?_append_left hlt]
    · have h1 : (h ++ [v])[b]? = none := by
        apply List.getElem?_eq_none
        simp; omega
      have h2 : h[b]? = none := by
        apply List.getElem?_eq_none
        omega
      rw [h1, h2]

theorem live_lt {h : Heap} {a : Nat} (hl : live h a = true) : a < h.length := by
  obtain ⟨it, hc⟩ := live_iff.mp hl
  exact cell_lt hc

theorem cell_append_live {h : Heap} (v : Option Item) {b : Nat} (hl : live h b = true) :
    cell (h ++ [v]) b = cell h b := by
  rw [cell_append, if_neg (Nat.ne_of_lt (live_lt hl))]

/-- Success and effect of `list_push_back` on an allocated record. -/
theorem list_push_back_ok {c : PECache} {key : Int} {a : Nat}
    (ha : live c.heap a = true) (hready : push_ready c key = true) :
    ∃ h1 dir1 head, list_push_back c key a = .ok { c with mPriorityItems := dir1, heap := h1 } ∧
      h1.length = c.heap.length ∧ (∀ b, dataOf h1 b = dataOf c.heap b) ∧
      map_find dir1 key = some head ∧ prevOf h1 head = some (some a) ∧
      nextOf h1 a = some (some head) ∧ prev_live h1 a = true ∧ live h1 head = true := by
  unfold push_ready at hready
  cases hf : map_find c.mPriorityItems key with
  | none =>
    obtain ⟨h1, e1, s1⟩ := setNext_ok (some a) ha
    obtain ⟨h2, e2, s2⟩ := setPrev_ok (some a) ((nextSet_live s1 a).trans ha)
    have hp : prevOf h2 a = some (some a) := by rw [(s2.2 a).2.2]; simp
    refine ⟨h2, map_insert c.mPriorityItems key a, a, ?_, ?_, ?_, ?_, hp, ?_, ?_, ?_⟩
    · simp only [list_push_back, hf, e1, e2, ok_bind]
      rfl
    · rw [s2.1, s1.1]
    · intro b; rw [(s2.2 b).1, (s1.2 b).1]
    · exact map_find_insert_self _ _ _ hf
    · rw [(s2.2 a).2.1, (s1.2 a).2.2]; simp
    · exact prev_live_iff.mpr ⟨a, hp, (prevSet_live s2 a).trans ((nextSet_live s1 a).trans ha)⟩
    · exact (prevSet_live s2 a).trans ((nextSet_live s1 a).trans ha)
  | some head =>
    rw [hf] at hready
    obtain ⟨t, hhp, ht⟩ := prev_live_iff.mp hready
    obtain ⟨hd, hhd, hdp, hhdc⟩ := load_prev hhp
    have hhl : live c.heap head = true := live_of_prevOf hhp
    obtain ⟨h1, e1, s1⟩ := setNext_ok (some a) ht
    obtain ⟨h2, e2, s2⟩ := setPrev_ok (some t) ((nextSet_live s1 a).trans ha)
    obtain ⟨h3, e3, s3⟩ := setNext_ok (some head) ((prevSet_live s2 a).trans ((nextSet_live s1 a).trans ha))
    obtain ⟨h4, e4, s4⟩ := setPrev_ok (some a)
      ((nextSet_live s3 head).trans ((prevSet_live s2 head).trans ((nextSet_live s1 head).trans hhl)))
    have hlive : ∀ b, live h4 b = live c.heap b := fun b =>
      (prevSet_live s4 b).trans ((nextSet_live s3 b).trans ((prevSet_live s2 b).trans (nextSet_live s1 b)))
    refine ⟨h4, c.mPriorityItems, head, ?_, ?_, ?_, hf, ?_, ?_, ?_, ?_⟩
    · simp only [list_push_back, hf, hhd, hdp, e1, e2, e3, e4, ok_bind]
      rfl
    · rw [s4.1, s3.1, s2.1, s1.1]
    · intro b; rw [(s4.2 b).1, (s3.2 b).1, (s2.2 b).1, (s1.2 b).1]
    · rw [(s4.2 head).2.2]; simp
    · rw [(s4.2 a).2.1, (s3.2 a).2.2]; simp
    · by_cases hha : head = a
      · exact prev_live_iff.mpr ⟨a, by rw [(s4.2 a).2.2]; simp [hha], (hlive a).trans ha⟩
      · refine prev_live_iff.mpr ⟨t, ?_, (hlive t).trans ht⟩
        rw [(s4.2 a).2.2, if_neg hha, (s3.2 a).2.1, (s2.2 a).2.2]; simp
    · exact (hlive head).trans hhl

theorem live_congr {h h1 : Heap} (hd : ∀ b, dataOf h1 b = dataOf h b) (b : Nat) :
    live h1 b = live h b := live_of_data (hd b)

theorem touch_ready_iff {c : PECache} {key : Int} {a : Nat} :
    touch_ready c key a = true ↔ ∃ head, map_find c.mPriorityItems key = some head ∧
      prev_live c.heap head = true ∧ prev_live c.heap a = true ∧ next_live c.heap a = true := by
  unfold touch_ready
  cases map_find c.mPriorityItems key with
  | none => simp
  | some head => simp [and_assoc]

/-- Success and effect of `list_rebuild` on a record whose links are allocated. -/
theorem list_rebuild_ready {c : PECache} {key : Int} {a : Nat}
    (hready : touch_ready c key a = true) :
    ∃ h6, list_rebuild c key a = .ok { c with heap := h6 } ∧ h6.length = c.heap.length ∧
      (∀ b, dataOf h6 b = dataOf c.heap b) ∧
      touch_ready { c with heap := h6 } key a = true := by
  obtain ⟨head, hf, hph, hpa, hna⟩ := touch_ready_iff.mp hready
  obtain ⟨t, hhp, ht⟩ := prev_live_iff.mp hph
  obtain ⟨x, hap, hx⟩ := prev_live_iff.mp hpa
  obtain ⟨y, han, hy⟩ := next_live_iff.mp hna
  obtain ⟨h6, e, hlen, hdata, p1, p2, p3⟩ := list_rebuild_ok hf hhp ht hap han hx hy
  refine ⟨h6, e, hlen, hdata, ?_⟩
  have hal : live h6 a = true := (live_congr hdata a).trans (live_of_prevOf hap)
  have hhl : live h6 head = true := (live_congr hdata head).trans (live_of_prevOf hhp)
  refine touch_ready_iff.mpr ⟨head, hf, prev_live_iff.mpr ⟨a, p1, hal⟩, ?_,
    next_live_iff.mpr ⟨head, p2, hhl⟩⟩
  rcases p3 with p3 | p3
  · exact prev_live_iff.mpr ⟨t, p3, (live_congr hdata t).trans ht⟩
  · exact prev_live_iff.mpr ⟨a, p3, hal⟩

theorem dataOf_cell {h : Heap} {a : Nat} {it : Item} (hc : cell h a = some it) :
    dataOf h a = some (it.key, it.value, it.priority, it.expireTime) := by
  simp [dataOf, hc, Item_data]

theorem cell_of_dataOf {h : Heap} {a : Nat} {k : String} {v p e : Int}
    (hd : dataOf h a = some (k, v, p, e)) :
    ∃ it, cell h a = some it ∧ it.key = k ∧ it.value = v ∧ it.priority = p ∧
      it.expireTime = e := by
  simp only [dataOf] at hd
  cases hc : cell h a with
  | none => simp [hc] at hd
  | some it =>
    simp [hc, Item_data] at hd
    exact ⟨it, rfl, hd.1, hd.2.1, hd.2.2.1, hd.2.2.2⟩

/-- A `get` hit on a record whose links are allocated. -/
theorem get_hit {c : PECache} {key : String} {a : Nat} {k : String} {v p e : Int}
    (hf : map_find c.mItems key = some a) (hd : dataOf c.heap a = some (k, v, p, e))
    (hready : touch_ready c p a = true) :
    ∃ h1, get c key = .ok ({ c with heap := h1 }, some a) ∧ h1.length = c.heap.length ∧
      (∀ b, dataOf h1 b = dataOf c.heap b) ∧
      touch_ready { c with heap := h1 } p a = true := by
  obtain ⟨it, hc, _, _, hp, _⟩ := cell_of_dataOf hd
  obtain ⟨h6, e6, hlen, hdata, hr⟩ := list_rebuild_ready hready
  refine ⟨h6, ?_, hlen, hdata, hr⟩
  simp only [get, hf, load_of_cell hc, hp, e6, ok_bind]
  rfl

/-- Reading the value through the pointer a `get` hit returns. -/
theorem get_value_hit {c : PECache} {key : String} {a : Nat} {k : String} {v p e : Int}
    (hf : map_find c.mItems key = some a) (hd : dataOf c.heap a = some (k, v, p, e))
    (hready : touch_ready c p a = true) :
    ∃ h1, get_value c key = .ok ({ c with heap := h1 }, some v) ∧
      h1.length = c.heap.length ∧ (∀ b, dataOf h1 b = dataOf c.heap b) := by
  obtain ⟨h1, e1, hlen, hdata, _⟩ := get_hit hf hd hready
  obtain ⟨it, hc, _, hv, _, _⟩ := cell_of_dataOf ((hdata a).trans hd)
  refine ⟨h1, ?_, hlen, hdata⟩
  simp only [get_value, e1, ok_bind, load_of_cell hc, hv]
  rfl

theorem prevOf_append_live {h : Heap} (v : Option Item) {b : Nat} (hl : live h b = true) :
    prevOf (h ++ [v]) b = prevOf h b := by
  simp only [prevOf, cell_append_live v hl]

theorem nextOf_append_live {h : Heap} (v : Option Item) {b : Nat} (hl : live h b = true) :
    nextOf (h ++ [v]) b = nextOf h b := by
  simp only [nextOf, cell_append_live v hl]

theorem live_append {h : Heap} (v : Option Item) {b : Nat} (hl : live h b = true) :
    live (h ++ [v]) b = true := by
  simp only [live, cell_append_live v hl]
  exact hl

theorem prev_live_append {h : Heap} (v : Option Item) {b : Nat} (hl : prev_live h b = true) :
    prev_live (h ++ [v]) b = true := by
  obtain ⟨t, hp, ht⟩ := prev_live_iff.mp hl
  exact prev_live_iff.mpr ⟨t, (prevOf_append_live v (live_of_prevOf hp)).trans hp,
    live_append v ht⟩

theorem live_of_nextOf {h : Heap} {a : Nat} {p : Ptr} (hp : nextOf h a = some p) :
    live h a = true := by
  simp only [nextOf] at hp
  cases hc : cell h a with
  | none => simp [hc] at hp
  | some it => simp [live, hc]

theorem next_live_append {h : Heap} (v : Option Item) {b : Nat} (hl : next_live h b = true) :
    next_live (h ++ [v]) b = true := by
  obtain ⟨t, hp, ht⟩ := next_live_iff.mp hl
  exact next_live_iff.mpr ⟨t, (nextOf_append_live v (live_of_nextOf hp)).trans hp,
    live_append v ht⟩

/-- A `set` of a key that is not cached: the record is pushed to the back of its ring and
entered into the maps. -/
theorem set_new_absent {c : PECache} {key : String} {value priority expireTime : Int}
    (habs : map_find c.mItems key = none) (hready : push_ready c priority = true) :
    ∃ h1 dir1, set_new c key value priority expireTime = .ok { c with
        heap := h1, mItems := map_insert c.mItems key c.heap.length,
        mExpireItems := map_insert c.mExpireItems expireTime c.heap.length,
        mPriorityItems := dir1 } ∧
      h1.length = c.heap.length + 1 ∧
      (∀ b, dataOf h1 b = if b = c.heap.length then some (key, value, priority, expireTime)
        else dataOf c.heap b) ∧
      touch_ready { c with heap := h1, mPriorityItems := dir1 } priority c.heap.length = true := by
  have hcell : cell (c.heap ++ [some ⟨key, value, priority, expireTime, none, none⟩])
      c.heap.length = some ⟨key, value, priority, expireTime, none, none⟩ := by
    rw [cell_append]; simp
  have hlive : live (new_Item c key value priority expireTime).1.heap c.heap.length = true := by
    simp [live, new_Item, hcell]
  have hr : push_ready (new_Item c key value priority expireTime).1 priority = true := by
    unfold push_ready at hready ⊢
    simp only [new_Item]
    cases hf : map_find c.mPriorityItems priority with
    | none => rfl
    | some head =>
      rw [hf] at hready
      exact prev_live_append _ hready
  obtain ⟨h1, dir1, head, e1, hlen, hdata, hfd, hph, hna, hpa, hhl⟩ :=
    list_push_back_ok hlive hr
  have hd0 : ∀ b, dataOf h1 b = if b = c.heap.length then
      some (key, value, priority, expireTime) else dataOf c.heap b := by
    intro b
    rw [hdata b]
    simp only [new_Item, dataOf, cell_append]
    by_cases hb : b = c.heap.length <;> simp [hb, Item_data]
  obtain ⟨it1, hc1, hk1, _, _, he1⟩ := cell_of_dataOf ((hd0 c.heap.length).trans (if_pos rfl))
  refine ⟨h1, dir1, ?_, ?_, hd0, ?_⟩
  · simp only [set_new, set, new_Item] at e1 ⊢
    simp only [load_of_cell hcell, ok_bind, habs, e1, load_of_cell hc1, hk1, he1]
    rfl
  · rw [hlen]; simp [new_Item]
  · have hal : live h1 c.heap.length = true := by
      simp [live, hc1]
    exact touch_ready_iff.mpr ⟨head, hfd, prev_live_iff.mpr ⟨_, hph, hal⟩, hpa,
      next_live_iff.mpr ⟨head, hna, hhl⟩⟩

theorem touch_ready_append {c : PECache} {p : Int} {a : Nat} (v : Option Item)
    (hready : touch_ready c p a = true) :
    touch_ready { c with heap := c.heap ++ [v] } p a = true := by
  obtain ⟨head, hf, h1, h2, h3⟩ := touch_ready_iff.mp hready
  exact touch_ready_iff.mpr ⟨head, hf, prev_live_append v h1, prev_live_append v h2,
    next_live_append v h3⟩

/-- A `set` of a cached key with the priority and expiry the record already has: the
record is touched and nothing else happens (the new `Item` stays unreferenced). -/
theorem set_new_same {c : PECache} {key : String} {value : Int} {a : Nat} {k : String}
    {v p e : Int}
    (hf : map_find c.mItems key = some a) (hd : dataOf c.heap a = some (k, v, p, e))
    (hready : touch_ready c p a = true) :
    ∃ h1, set_new c key value p e = .ok { c with heap := h1 } ∧
      dataOf h1 a = some (k, v, p, e) ∧
      touch_ready { c with heap := h1 } p a = true := by
  have hcell : cell (c.heap ++ [some ⟨key, value, p, e, none, none⟩])
      c.heap.length = some ⟨key, value, p, e, none, none⟩ := by
    rw [cell_append]; simp
  obtain ⟨old, hoc, _, _, hop, hoe⟩ := cell_of_dataOf hd
  have hal : live c.heap a = true := by simp [live, hoc]
  have hoc0 : cell (c.heap ++ [some ⟨key, value, p, e, none, none⟩]) a = some old := by
    rw [cell_append_live _ hal, hoc]
  obtain ⟨h6, e6, _, hdata, hr⟩ :=
    list_rebuild_ready (touch_ready_append (some ⟨key, value, p, e, none, none⟩) hready)
  refine ⟨h6, ?_, ?_, hr⟩
  · simp only [set_new, set, new_Item]
    simp only [load_of_cell hcell, ok_bind, hf, load_of_cell hoc0, hop, hoe, and_self,
      if_true]
    exact e6
  · rw [hdata a]
    simp only [dataOf, hoc0, hoc] at hd ⊢
    exact hd

theorem map_begin_mem {m : List (Int × Nat)} {e : Int × Nat} (h : map_begin m = some e) :
    e ∈ m := by
  induction m generalizing e with
  | nil => simp [map_begin] at h
  | cons e0 r ih =>
    simp only [map_begin] at h
    cases hr : map_begin r with
    | none =>
      simp only [hr] at h
      cases h
      simp
    | some m0 =>
      simp only [hr] at h
      by_cases hle : e0.1 ≤ m0.1
      · simp only [hle, if_true] at h
        cases h
        simp
      · simp only [hle, if_false] at h
        cases h
        exact List.mem_cons_of_mem _ (ih hr)

theorem map_begin_le {m : List (Int × Nat)} {e : Int × Nat} (h : map_begin m = some e) :
    ∀ e2 ∈ m, e.1 ≤ e2.1 := by
  induction m generalizing e with
  | nil => simp [map_begin] at h
  | cons e0 r ih =>
    simp only [map_begin] at h
    intro e2 he2
    cases hr : map_begin r with
    | none =>
      simp only [hr] at h
      cases h
      cases r with
      | nil =>
        simp at he2
        rw [he2]
      | cons e1 r1 =>
        simp only [map_begin] at hr
        split at hr <;> try split at hr
        all_goals simp at hr
    | some m0 =>
      simp only [hr] at h
      have ih0 := ih hr
      rcases List.mem_cons.mp he2 with rfl | hmem
      · by_cases hle : e2.1 ≤ m0.1
        · simp only [hle, if_true] at h
          cases h
          exact le_refl _
        · simp only [hle, if_false] at h
          cases h
          omega
      · by_cases hle : e0.1 ≤ m0.1
        · simp only [hle, if_true] at h
          cases h
          exact le_trans hle (ih0 e2 hmem)
        · simp only [hle, if_false] at h
          cases h
          exact ih0 e2 hmem

theorem map_begin_of_mem {m : List (Int × Nat)} {e : Int × Nat} (h : e ∈ m) :
    ∃ e0, map_begin m = some e0 := by
  cases m with
  | nil => simp at h
  | cons e1 r =>
    simp only [map_begin]
    cases map_begin r with
    | none => exact ⟨_, rfl⟩
    | some m0 =>
      by_cases hle : e1.1 ≤ m0.1
      · exact ⟨e1, by simp [hle]⟩
      · exact ⟨m0, by simp [hle]⟩

theorem expired_iff {c : PECache} {a : Nat} {t : Int} (ht : expireOf c.heap a = some t) :
    expired c a = true ↔ t ≤ c.TIME_LIMIT := by
  simp [expired, ht]

theorem unlink_ready_iff {c : PECache} {p : Int} {a : Nat} :
    unlink_ready c p a = true ↔ ∃ head q, map_find c.mPriorityItems p = some head ∧
      nextOf c.heap head = some q ∧ q ≠ some head ∧
      prev_live c.heap a = true ∧ next_live c.heap a = true := by
  unfold unlink_ready
  cases map_find c.mPriorityItems p with
  | none => simp
  | some head =>
    cases hn : nextOf c.heap head with
    | none => simp [hn]
    | some q => simp [hn, and_assoc]

theorem load_next {h : Heap} {a : Nat} {p : Ptr} (hp : nextOf h a = some p) :
    ∃ it, load h (some a) = .ok it ∧ it.next = p := by
  simp only [nextOf] at hp
  cases hc : cell h a with
  | none => simp [hc] at hp
  | some it =>
    simp [hc] at hp
    exact ⟨it, load_of_cell hc, hp⟩

/-- Success and effect of the unlinking branch of `list_remove`. -/
theorem list_remove_unlink {c : PECache} {p : Int} {a : Nat}
    (hready : unlink_ready c p a = true) :
    ∃ h4, list_remove c p a = .ok { c with heap := h4 } ∧ h4.length = c.heap.length ∧
      (∀ b, dataOf h4 b = dataOf c.heap b) := by
  obtain ⟨head, q, hf, hhn, hq, hpa, hna⟩ := unlink_ready_iff.mp hready
  obtain ⟨hd, hhd, hdn⟩ := load_next hhn
  obtain ⟨x, hap, hx⟩ := prev_live_iff.mp hpa
  obtain ⟨y, han, hy⟩ := next_live_iff.mp hna
  obtain ⟨o, hoc, hop, hon⟩ := cell_of_links hap han
  have hal : live c.heap a = true := live_of_prevOf hap
  obtain ⟨h1, e1, s1⟩ := setNext_ok (some y) hx
  have ha1p : prevOf h1 a = some (some x) := by rw [(s1.2 a).2.1, hap]
  have ha1n : nextOf h1 a = some (some y) := by
    rw [(s1.2 a).2.2, han]; simp
  obtain ⟨o2, ho2c, ho2p, ho2n⟩ := cell_of_links ha1p ha1n
  obtain ⟨h2, e2, s2⟩ := setPrev_ok (some x) ((nextSet_live s1 y).trans hy)
  obtain ⟨h3, e3, s3⟩ := setPrev_ok none
    ((prevSet_live s2 a).trans ((nextSet_live s1 a).trans hal))
  obtain ⟨h4, e4, s4⟩ := setNext_ok none
    ((prevSet_live s3 a).trans ((prevSet_live s2 a).trans ((nextSet_live s1 a).trans hal)))
  refine ⟨h4, ?_, ?_, ?_⟩
  · have hne : ¬ hd.next = some head := by rw [hdn]; exact hq
    simp only [list_remove, map_at, hf, ok_bind, hhd, hne, if_false, load_of_cell hoc, hop,
      hon, e1, load_of_cell ho2c, ho2p, ho2n, e2, e3, e4]
    rfl
  · rw [s4.1, s3.1, s2.1, s1.1]
  · intro b
    rw [(s4.2 b).1, (s3.2 b).1, (s2.2 b).1, (s1.2 b).1]

/-- Success and effect of an eviction through the unlinking branch of `list_remove`. -/
theorem evict_unlink {c : PECache} {v : Nat} {k : String} {val p e : Int}
    (hd : dataOf c.heap v = some (k, val, p, e)) (hready : unlink_ready c p v = true) :
    ∃ h5, evict c v = .ok { c with
        mItems := map_erase c.mItems k, mExpireItems := map_erase c.mExpireItems e,
        heap := h5 } ∧
      h5.length = c.heap.length := by
  obtain ⟨it, hc, hk, _, hp, he⟩ := cell_of_dataOf hd
  obtain ⟨h4, e4, hlen, hdata⟩ := @list_remove_unlink
    { c with mItems := map_erase c.mItems k, mExpireItems := map_erase c.mExpireItems e }
    p v hready
  have hl4 : live h4 v = true := by
    rw [live_congr hdata v]
    simp [live, hc]
  obtain ⟨it4, hc4⟩ := live_iff.mp hl4
  refine ⟨h4.set v none, ?_, by simp [hlen]⟩
  simp only [evict, load_of_cell hc, ok_bind, hk, hp, he, e4, free, hc4]
  rfl

theorem map_find_erase_self {κ : Type} [DecidableEq κ] (m : List (κ × Nat)) (k : κ) :
    map_find (map_erase m k) k = none := by
  induction m with
  | nil => rfl
  | cons e r ih =>
    obtain ⟨k1, v1⟩ := e
    by_cases hk : k1 = k
    · simpa [map_erase, hk] using ih
    · have : map_erase ((k1, v1) :: r) k = (k1, v1) :: map_erase r k := by
        simp [map_erase, hk]
      rw [this]
      simp [map_find, hk, ih]

theorem map_erase_absent {κ : Type} [DecidableEq κ] (m : List (κ × Nat)) (k : κ)
    (hk : k ∉ m.map Prod.fst) : map_erase m k = m := by
  simp only [map_erase]
  apply List.filter_eq_self.mpr
  intro e he
  simp only [ne_eq, decide_eq_true_eq]
  intro hek
  exact hk (List.mem_map.mpr ⟨e, he, hek⟩)

theorem map_find_mem {κ : Type} [DecidableEq κ] {m : List (κ × Nat)} {k : κ} {v : Nat}
    (h : map_find m k = some v) : k ∈ m.map Prod.fst := by
  induction m with
  | nil => simp [map_find] at h
  | cons e r ih =>
    obtain ⟨k1, v1⟩ := e
    by_cases hk : k1 = k
    · simp [hk]
    · simp only [map_find, hk, if_false] at h
      simp [ih h]

theorem map_erase_length {κ : Type} [DecidableEq κ] {m : List (κ × Nat)} {k : κ}
    (hnd : (m.map Prod.fst).Nodup) (hk : k ∈ m.map Prod.fst) :
    (map_erase m k).length + 1 = m.length := by
  induction m with
  | nil => simp at hk
  | cons e r ih =>
    obtain ⟨k1, v1⟩ := e
    simp only [List.map_cons, List.nodup_cons] at hnd
    by_cases hk1 : k1 = k
    · subst hk1
      have h1 : map_erase ((k1, v1) :: r) k1 = map_erase r k1 := by
        simp [map_erase]
      rw [h1, map_erase_absent r k1 hnd.1]
      simp
    · have h1 : map_erase ((k1, v1) :: r) k = (k1, v1) :: map_erase r k := by
        simp [map_erase, hk1]
      have hk2 : k ∈ r.map Prod.fst := by
        simp only [List.map_cons, List.mem_cons] at hk
        rcases hk with hk | hk
        · exact absurd hk.symm hk1
        · exact hk
      rw [h1]
      simp only [List.length_cons]
      rw [ih hnd.2 hk2]


theorem to_size_t_of_int {capacity : Int} (h0 : 0 ≤ capacity) (hmax : capacity ≤ INT_MAX) :
    to_size_t capacity = capacity := by
  unfold to_size_t
  apply Int.emod_eq_of_lt h0
  unfold INT_MAX at hmax
  omega

/-! ## The eviction loop ends -/

theorem bind_ok_inv {ε α β : Type} {x : Except ε α} {f : α → Except ε β} {r : β}
    (h : (x >>= f) = .ok r) : ∃ a, x = .ok a ∧ f a = .ok r := by
  cases x with
  | error e => cases h
  | ok a => exact ⟨a, rfl, h⟩

theorem live_count_set_some (h : Heap) (a : Nat) (x it : Item) (hc : cell h a = some it) :
    live_count (h.set a (some x)) = live_count h := by
  induction h generalizing a with
  | nil => simp [cell] at hc
  | cons y r ih =>
    cases a with
    | zero =>
      simp only [cell, List.getElem?_cons_zero] at hc
      cases y with
      | none => simp at hc
      | some z => simp [live_count, List.countP_cons]
    | succ n =>
      have hc2 : cell r n = some it := by
        simpa [cell] using hc
      have := ih n hc2
      simp only [live_count, List.set_cons_succ, List.countP_cons] at this ⊢
      rw [this]

theorem live_count_set_none (h : Heap) (a : Nat) (it : Item) (hc : cell h a = some it) :
    live_count (h.set a none) + 1 = live_count h := by
  induction h generalizing a with
  | nil => simp [cell] at hc
  | cons y r ih =>
    cases a with
    | zero =>
      simp only [cell, List.getElem?_cons_zero] at hc
      cases y with
      | none => simp at hc
      | some z => simp [live_count, List.countP_cons]
    | succ n =>
      have hc2 : cell r n = some it := by
        simpa [cell] using hc
      have := ih n hc2
      simp only [live_count, List.set_cons_succ, List.countP_cons] at this ⊢
      omega

theorem live_count_le_length (h : Heap) : live_count h ≤ h.length := by
  simp only [live_count]
  exact List.countP_le_length _

theorem store_inv {h h1 : Heap} {p : Ptr} {f : Item → Item} (hs : store h p f = .ok h1) :
    live_count h1 = live_count h ∧ h1.length = h.length := by
  unfold store at hs
  cases p with
  | none => cases hs
  | some a =>
    simp only at hs
    cases hc : cell h a with
    | none => simp [hc] at hs
    | some it =>
      simp only [hc] at hs
      cases hs
      exact ⟨live_count_set_some h a _ it hc, by simp⟩

theorem free_inv {h h1 : Heap} {a : Nat} (hs : free h a = .ok h1) :
    live_count h1 + 1 = live_count h ∧ h1.length = h.length := by
  unfold free at hs
  cases hc : cell h a with
  | none => simp [hc] at hs
  | some it =>
    simp only [hc] at hs
    cases hs
    exact ⟨live_count_set_none h a it hc, by simp⟩

/-- Whatever `list_remove` does when it returns: the Key Index and the Expiry Index are
as before and no record was allocated. -/
theorem list_remove_inv {c c1 : PECache} {p : Int} {a : Nat}
    (h : list_remove c p a = .ok c1) :
    c1.mItems = c.mItems ∧ c1.mExpireItems = c.mExpireItems ∧
      c1.heap.length = c.heap.length ∧ live_count c1.heap ≤ live_count c.heap := by
  unfold list_remove at h
  obtain ⟨head, _, h⟩ := bind_ok_inv h
  obtain ⟨hd, _, h⟩ := bind_ok_inv h
  by_cases hself : hd.next = some head
  · simp only [hself, if_true] at h
    by_cases heq : head = a
    · simp only [heq, if_true] at h
      obtain ⟨h1, hf, h⟩ := bind_ok_inv h
      cases h
      obtain ⟨hc, hl⟩ := free_inv hf
      exact ⟨rfl, rfl, hl, by simp only; omega⟩
    · simp only [heq, if_false] at h
      cases h
  · simp only [hself, if_false] at h
    obtain ⟨o1, _, h⟩ := bind_ok_inv h
    obtain ⟨h1, hs1, h⟩ := bind_ok_inv h
    obtain ⟨o2, _, h⟩ := bind_ok_inv h
    obtain ⟨h2, hs2, h⟩ := bind_ok_inv h
    obtain ⟨h3, hs3, h⟩ := bind_ok_inv h
    obtain ⟨h4, hs4, h⟩ := bind_ok_inv h
    cases h
    obtain ⟨a1, b1⟩ := store_inv hs1
    obtain ⟨a2, b2⟩ := store_inv hs2
    obtain ⟨a3, b3⟩ := store_inv hs3
    obtain ⟨a4, b4⟩ := store_inv hs4
    exact ⟨rfl, rfl, by simp only; omega, by simp only; omega⟩

/-- Whatever `evict` does when it returns: one key was erased from the Key Index and one
allocated record is gone. -/
theorem evict_inv {c c1 : PECache} {v : Nat} (h : evict c v = .ok c1) :
    (∃ k, c1.mItems = map_erase c.mItems k) ∧ c1.heap.length = c.heap.length ∧
      live_count c1.heap < live_count c.heap := by
  unfold evict at h
  obtain ⟨e1, _, h⟩ := bind_ok_inv h
  obtain ⟨c3, hr, h⟩ := bind_ok_inv h
  obtain ⟨h5, hf, h⟩ := bind_ok_inv h
  cases h
  obtain ⟨m1, _, l1, n1⟩ := list_remove_inv hr
  obtain ⟨n2, l2⟩ := free_inv hf
  refine ⟨⟨e1.key, m1⟩, ?_, ?_⟩
  · simp only at l1 ⊢; omega
  · simp only at n1 ⊢; omega

theorem bind_fuel {α β : Type} {x : Except Fault α} {f : α → Except Fault β}
    (hx : x ≠ .error .outOfFuel) (hf : ∀ a, f a ≠ .error .outOfFuel) :
    (x >>= f) ≠ .error .outOfFuel := by
  cases x with
  | error e =>
    intro h
    change Except.error e = _ at h
    cases h
    exact hx rfl
  | ok a => exact hf a

theorem load_fuel (h : Heap) (p : Ptr) : load h p ≠ .error .outOfFuel := by
  unfold load
  split
  · simp
  · split <;> simp

theorem store_fuel (h : Heap) (p : Ptr) (f : Item → Item) :
    store h p f ≠ .error .outOfFuel := by
  unfold store
  split
  · simp
  · split <;> simp

theorem free_fuel (h : Heap) (a : Nat) : free h a ≠ .error .outOfFuel := by
  unfold free
  split <;> simp

theorem map_at_fuel (m : List (Int × Nat)) (k : Int) : map_at m k ≠ .error .outOfFuel := by
  unfold map_at
  split <;> simp

theorem list_remove_fuel (c : PECache) (p : Int) (a : Nat) :
    list_remove c p a ≠ .error .outOfFuel := by
  unfold list_remove
  refine bind_fuel (map_at_fuel _ _) (fun head => ?_)
  refine bind_fuel (load_fuel _ _) (fun hd => ?_)
  split
  · split
    · exact bind_fuel (free_fuel _ _) (fun _ => by simp [pure, Except.pure])
    · simp [throw, throwThe, MonadExceptOf.throw]
  · refine bind_fuel (load_fuel _ _) (fun o1 => ?_)
    refine bind_fuel (store_fuel _ _ _) (fun h1 => ?_)
    refine bind_fuel (load_fuel _ _) (fun o2 => ?_)
    refine bind_fuel (store_fuel _ _ _) (fun h2 => ?_)
    refine bind_fuel (store_fuel _ _ _) (fun h3 => ?_)
    exact bind_fuel (store_fuel _ _ _) (fun _ => by simp [pure, Except.pure])

theorem evict_fuel (c : PECache) (v : Nat) : evict c v ≠ .error .outOfFuel := by
  unfold evict
  refine bind_fuel (load_fuel _ _) (fun e1 => ?_)
  refine bind_fuel (list_remove_fuel _ _ _) (fun c3 => ?_)
  exact bind_fuel (free_fuel _ _) (fun _ => by simp [pure, Except.pure])

/-- The fuel `set_capacity` starts its loop with is never used up: every completed round
deletes one allocated record. -/
theorem set_capacity_loop_fuel (fuel : Nat) (c : PECache) (capacity : Int)
    (hfuel : live_count c.heap < fuel) :
    set_capacity_loop fuel c capacity ≠ .error .outOfFuel := by
  induction fuel generalizing c with
  | zero => omega
  | succ n ih =>
    unfold set_capacity_loop
    by_cases hgt : (c.mItems.length : Int) > to_size_t capacity
    · simp only [hgt, if_true]
      cases hsel : select_victim c with
      | error e =>
        intro hcontra
        unfold select_victim at hsel
        cases hb : map_begin c.mExpireItems with
        | none => simp [hb] at hsel; subst hsel; cases hcontra
        | some ta =>
          obtain ⟨t, a⟩ := ta
          simp only [hb] at hsel
          by_cases ht : t ≤ c.TIME_LIMIT
          · simp [ht] at hsel
          · simp only [ht, if_false] at hsel
            cases hb2 : map_begin c.mPriorityItems with
            | none => simp [hb2] at hsel; subst hsel; cases hcontra
            | some pa => simp [hb2] at hsel
      | ok v =>
        simp only [ok_bind]
        cases hev : evict c v with
        | error e =>
          intro hcontra
          have hne := evict_fuel c v
          rw [hev] at hne
          exact hne hcontra
        | ok c1 =>
          simp only [ok_bind]
          obtain ⟨_, _, hlt⟩ := evict_inv hev
          exact ih c1 (by omega)
    · simp only [hgt, if_false]
      intro hcontra
      cases hcontra


/-- The loop of `set_capacity` always ends within the fuel it is given: the call returns a
state or a fault of the source, never the fuel marker. -/
theorem set_capacity_fuel (c : PECache) (capacity : Int) :
    set_capacity c capacity ≠ .error .outOfFuel := by
  by_cases hlt : capacity < c.maxCapacity
  · simp only [set_capacity, hlt, if_true]
    exact bind_fuel (set_capacity_loop_fuel _ c capacity
      (Nat.lt_succ_of_le (live_count_le_length c.heap))) (fun _ => by simp [pure, Except.pure])
  · simp only [set_capacity, hlt, if_false]
    simp [pure, Except.pure, bind, Except.bind]

theorem map_erase_nodup {κ : Type} [DecidableEq κ] {m : List (κ × Nat)} (k : κ)
    (hnd : (m.map Prod.fst).Nodup) : ((map_erase m k).map Prod.fst).Nodup := by
  apply List.Nodup.sublist _ hnd
  exact List.Sublist.map _ (List.filter_sublist _)

theorem map_erase_length_ge {κ : Type} [DecidableEq κ] {m : List (κ × Nat)} (k : κ)
    (hnd : (m.map Prod.fst).Nodup) : m.length ≤ (map_erase m k).length + 1 := by
  by_cases hk : k ∈ m.map Prod.fst
  · rw [map_erase_length hnd hk]
  · rw [map_erase_absent m k hk]
    omega

/-- When the loop of `set_capacity` returns, having started with more records than the
capacity, exactly `capacity` records are left: a round erases at most one key. -/
theorem set_capacity_loop_size (fuel : Nat) (c c1 : PECache) (capacity : Int)
    (hnd : (c.mItems.map Prod.fst).Nodup) (hge : to_size_t capacity ≤ c.mItems.length)
    (h : set_capacity_loop fuel c capacity = .ok c1) :
    (c1.mItems.length : Int) = to_size_t capacity := by
  induction fuel generalizing c with
  | zero => cases h
  | succ n ih =>
    unfold set_capacity_loop at h
    by_cases hgt : (c.mItems.length : Int) > to_size_t capacity
    · simp only [hgt, if_true] at h
      obtain ⟨v, _, h⟩ := bind_ok_inv h
      obtain ⟨c2, hev, h⟩ := bind_ok_inv h
      obtain ⟨⟨k, hk⟩, _, _⟩ := evict_inv hev
      refine ih c2 ?_ ?_ h
      · rw [hk]; exact map_erase_nodup k hnd
      · rw [hk]
        have := map_erase_length_ge k hnd
        omega
    · simp only [hgt, if_false] at h
      cases h
      omega

theorem get_of_absent {c : PECache} {key : String} (habs : map_find c.mItems key = none) :
    get c key = .ok (c, none) := by
  simp only [get, habs]
  rfl

/-- The states named `main_state` are the ones the five `set` calls of `main` lead to. -/
theorem main_sets_run :
    run (new 5) main_sets = .ok (main_state 5 INT_MAX) ∧
      run (new 2) main_sets = .ok (main_state 2 INT_MAX) ∧
      run (setTimeLimit (new 5) 10) main_sets = .ok (main_state 5 10) ∧
      run (setTimeLimit (new 5) 11) main_sets = .ok (main_state 5 11) := by
  decide

/-! ## The claims -/

/-- C1, counterexample: after `set("A", 1, 5, 11)` a second `set("A", 2, 5, 11)` with the
same priority and expiry leaves the stored value alone, and `get("A")` returns 1, not 2. -/
theorem set_same_priority_expiry_keeps_old_value :
    (do
      let c1 ← set_new (new 5) "A" 1 5 11
      let c2 ← set_new c1 "A" 2 5 11
      let r ← get_value c2 "A"
      pure r.2) = Except.ok (some 1) := by
  decide

/-- C1, as amended: `set` followed immediately by `get(key)` returns `value` when the key
was not cached before the `set`; when the key was cached with the same priority and
expiry, `set` does no data update and `get` returns the value stored before. In both
cases the ring links the two calls follow have to point to allocated records. -/
theorem set_then_get_value (c : PECache) (key : String) (value priority expireTime : Int) :
    (map_find c.mItems key = none → push_ready c priority = true →
      ∃ c1 c2, set_new c key value priority expireTime = .ok c1 ∧
        get_value c1 key = .ok (c2, some value)) ∧
    (∀ a old, map_find c.mItems key = some a → cell c.heap a = some old →
      old.priority = priority → old.expireTime = expireTime →
      touch_ready c priority a = true →
      ∃ c1 c2, set_new c key value priority expireTime = .ok c1 ∧
        get_value c1 key = .ok (c2, some old.value)) := by
  constructor
  · intro habs hready
    obtain ⟨h1, dir1, e1, _, hdata, hr⟩ :=
      @set_new_absent c key value priority expireTime habs hready
    have hf : map_find (map_insert c.mItems key c.heap.length) key = some c.heap.length :=
      map_find_insert_self _ _ _ habs
    have hd : dataOf h1 c.heap.length = some (key, value, priority, expireTime) := by
      rw [hdata]; simp
    obtain ⟨h2, e2, _, _⟩ := @get_value_hit
      { c with heap := h1, mItems := map_insert c.mItems key c.heap.length,
               mExpireItems := map_insert c.mExpireItems expireTime c.heap.length,
               mPriorityItems := dir1 } key _ _ _ _ _ hf hd hr
    exact ⟨_, _, e1, e2⟩
  · intro a old hf hc hp he hready
    have hd : dataOf c.heap a = some (old.key, old.value, priority, expireTime) := by
      rw [dataOf_cell hc, hp, he]
    obtain ⟨h1, e1, hd1, hr1⟩ := @set_new_same c key value a _ _ _ _ hf hd hready
    obtain ⟨h2, e2, _, _⟩ := @get_value_hit { c with heap := h1 } key _ _ _ _ _ hf hd1 hr1
    exact ⟨_, _, e1, e2⟩

/-- C1, witness: on the empty cache `set("A", 12, 5, 11)` then `get("A")` returns 12, and
in the state of `main`, where `A` is cached with priority 5 and expiry 11,
`set("A", 99, 5, 11)` then `get("A")` returns the old 12. -/
theorem set_then_get_value_witness :
    (∃ c1 c2, set_new (new 5) "A" 12 5 11 = .ok c1 ∧ get_value c1 "A" = .ok (c2, some 12)) ∧
    (∃ c1 c2, set_new (main_state 5 INT_MAX) "A" 99 5 11 = .ok c1 ∧
      get_value c1 "A" = .ok (c2, some 12)) :=
  ⟨(set_then_get_value (new 5) "A" 12 5 11).1 (by decide) (by decide),
   (set_then_get_value (main_state 5 INT_MAX) "A" 99 5 11).2 0
     ⟨"A", 12, 5, 11, some 3, some 2⟩ (by decide) (by decide) rfl rfl (by decide)⟩

/-- C2, counterexample: from the empty cache of capacity 1, after `set` of `A` and `B`
(`size() == 2`), `set_capacity(1)` evicts nothing, because 1 is not below the stored
capacity, and `size()` is still 2. -/
theorem set_capacity_keeps_size_above :
    (do
      let c ← run (new 1) [.set "A" 12 5 11, .set "B" 12 4 12, .set_capacity 1]
      pure (size c)) = Except.ok 2 := by
  decide

/-- C2, as amended: `set_capacity(n)` with `0 <= n` evicts only when `n` is below the
stored capacity. When it is not, nothing is evicted and `size()` stays what it was, also
above `n`. When it is, and `n < size()` in a Key Index without duplicate keys, a call that
completes leaves `size() == n`. The call does complete when one record has to go
(`size() == n + 1`) and the record the loop picks is cached and is unlinked by the second
branch of `list_remove` (its ring's anchor is not linked to itself, its neighbours are
allocated); `get` on the evicted key then misses. -/
theorem set_capacity_size (c : PECache) (capacity : Int) (h0 : 0 ≤ capacity)
    (hmax : capacity ≤ INT_MAX) :
    (c.maxCapacity ≤ capacity →
      ∃ c1, set_capacity c capacity = .ok c1 ∧ size c1 = size c) ∧
    (∀ c1, capacity < c.maxCapacity → capacity < size c → (c.mItems.map Prod.fst).Nodup →
      set_capacity c capacity = .ok c1 → (size c1 : Int) = capacity) ∧
    (∀ v k val p e, capacity < c.maxCapacity → (size c : Int) = capacity + 1 →
      (c.mItems.map Prod.fst).Nodup → select_victim c = .ok v →
      dataOf c.heap v = some (k, val, p, e) → k ∈ c.mItems.map Prod.fst →
      unlink_ready c p v = true →
      ∃ c1, set_capacity c capacity = .ok c1 ∧ (size c1 : Int) = capacity ∧
        get c1 k = .ok (c1, none)) := by
  have hts := to_size_t_of_int h0 hmax
  refine ⟨?_, ?_, ?_⟩
  · intro hge
    refine ⟨{ c with maxCapacity := capacity }, ?_, rfl⟩
    simp only [set_capacity, not_lt.mpr hge, if_false]
    rfl
  · intro c1 hshrink hover hnd hrun
    simp only [set_capacity, hshrink, if_true] at hrun
    obtain ⟨c2, hloop, hrun⟩ := bind_ok_inv hrun
    cases hrun
    have hge : to_size_t capacity ≤ c.mItems.length := by
      rw [hts]
      simp only [size] at hover
      omega
    have hsz := set_capacity_loop_size _ c c2 capacity hnd hge hloop
    rw [hts] at hsz
    exact hsz
  · intro v k val p e hshrink hsize hnd hsel hd hk hready
    obtain ⟨h5, e5, hlen⟩ := evict_unlink hd hready
    obtain ⟨it, hc, _⟩ := cell_of_dataOf hd
    have hpos : 0 < c.heap.length := Nat.lt_of_le_of_lt (Nat.zero_le _) (cell_lt hc)
    obtain ⟨m, hm⟩ : ∃ m, c.heap.length = m + 1 := ⟨c.heap.length - 1, by omega⟩
    have hgt : (c.mItems.length : Int) > to_size_t capacity := by
      rw [hts]
      simp only [size] at hsize
      omega
    have hel := map_erase_length hnd hk
    have hngt : ¬ (((map_erase c.mItems k).length : Int) > to_size_t capacity) := by
      rw [hts]
      simp only [size] at hsize
      omega
    refine ⟨{ c with mItems := map_erase c.mItems k,
                     mExpireItems := map_erase c.mExpireItems e, heap := h5,
                     maxCapacity := capacity }, ?_, ?_, ?_⟩
    · simp only [set_capacity, hshrink, if_true, set_capacity_loop, hgt, hsel, ok_bind, e5,
        hm, hngt, if_false]
      rfl
    · simp only [size] at hsize ⊢
      omega
    · exact get_of_absent (map_find_erase_self _ _)

/-- C2, witness: in the state of `main` (capacity 5, `TIME_LIMIT = INT_MAX`),
`set_capacity(5)` leaves the five records in place, and `set_capacity(4)` evicts `A`, the
record with the earliest expiry, whose ring holds `A, C, D`: four records are left and
`get("A")` misses. -/
theorem set_capacity_size_witness :
    (∃ c1, set_capacity (main_state 5 INT_MAX) 5 = .ok c1 ∧
      size c1 = size (main_state 5 INT_MAX)) ∧
    (set_capacity (main_state 5 INT_MAX) 4 = .ok main_state_without_A ∧
      (size main_state_without_A : Int) = 4) ∧
    (∃ c1, set_capacity (main_state 5 INT_MAX) 4 = .ok c1 ∧ (size c1 : Int) = 4 ∧
      get c1 "A" = .ok (c1, none)) :=
  ⟨(set_capacity_size (main_state 5 INT_MAX) 5 (by decide) (by decide)).1 (by decide),
   ⟨by decide, (set_capacity_size (main_state 5 INT_MAX) 4 (by decide) (by decide)).2.1
     main_state_without_A (by decide) (by decide) (by decide) (by decide)⟩,
   (set_capacity_size (main_state 5 INT_MAX) 4 (by decide) (by decide)).2.2 0 "A" 12 5 11
     (by decide) (by decide) (by decide) (by decide) (by decide) (by decide) (by decide)⟩

/-- C3, counterexample: in `expiry_lost_state`, reached by six `set` calls, the cached
records have the pairwise distinct expiry times 11, 12, 30, 40, 41 and with
`TIME_LIMIT = 11` only `X` is expired, but `X` has lost its Expiry Index entry. The loop
picks `W`, the anchor of the lowest priority, and `set_capacity(4)` returns with `X` still
cached. -/
theorem distinct_expiry_evicts_unexpired :
    run (setTimeLimit (new 5) 11)
      [.set "X" 12 5 11, .set "Y" 12 5 11, .set "Z" 12 5 30, .set "Y" 12 5 12,
        .set "W" 12 1 40, .set "V" 12 1 41] = .ok expiry_lost_state ∧
    expiry_lost_state.mItems.map
        (fun (kv : String × Nat) => expireOf expiry_lost_state.heap kv.2) =
      [some 11, some 12, some 30, some 40, some 41] ∧
    expiry_lost_state.mItems.map (fun (kv : String × Nat) => expired expiry_lost_state kv.2) =
      [true, false, false, false, false] ∧
    (select_victim expiry_lost_state).map (dataOf expiry_lost_state.heap) =
      .ok (some ("W", 12, 1, 40)) ∧
    (set_capacity expiry_lost_state 4).map
        (fun c => c.mItems.map (fun (kv : String × Nat) => kv.1)) =
      .ok ["X", "Y", "Z", "V"] := by
  decide

/-- C3, as amended: in a state whose Expiry Index files every entry under the `expireTime`
of a cached record, where the record `r` is expired (`expireTime <= TIME_LIMIT`) and has
its entry and no other cached record is expired, a `set_capacity` that has to evict (the
capacity is below the stored one and below `size()`) picks `r` first, whatever the
priorities are: it runs the eviction of `r` and only then goes on with the loop. That
eviction erases the key of `r` from the Key Index; it completes when `r` is unlinked by
the second branch of `list_remove`. -/
theorem expired_record_evicted_first (c : PECache) (r : Nat) (capacity : Int)
    (hidx : ∀ e ∈ c.mExpireItems, e.2 ∈ c.mItems.map Prod.snd ∧
      expireOf c.heap e.2 = some e.1)
    (hr : ∃ t, expireOf c.heap r = some t ∧ (t, r) ∈ c.mExpireItems)
    (hexp : expired c r = true)
    (hothers : ∀ kv ∈ c.mItems, kv.2 ≠ r → expired c kv.2 = false)
    (hshrink : capacity < c.maxCapacity) (hover : to_size_t capacity < size c) :
    select_victim c = .ok r ∧
      set_capacity c capacity = (do
        let c1 ← evict c r
        let c2 ← set_capacity_loop c.heap.length c1 capacity
        pure { c2 with maxCapacity := capacity }) ∧
      (∀ k val p e, dataOf c.heap r = some (k, val, p, e) → unlink_ready c p r = true →
        ∃ c1, evict c r = .ok c1 ∧ map_find c1.mItems k = none) := by
  obtain ⟨t, hrt, hmem⟩ := hr
  obtain ⟨e0, hb⟩ := map_begin_of_mem hmem
  have hle : e0.1 ≤ t := map_begin_le hb _ hmem
  have htl : t ≤ c.TIME_LIMIT := (expired_iff hrt).mp hexp
  have he0 : e0.1 ≤ c.TIME_LIMIT := le_trans hle htl
  obtain ⟨hin, hexp0⟩ := hidx e0 (map_begin_mem hb)
  have heq : e0.2 = r := by
    by_contra hne
    obtain ⟨kv, hkv, hkv2⟩ := List.mem_map.mp hin
    have hfalse := hothers kv hkv (by rw [hkv2]; exact hne)
    rw [hkv2] at hfalse
    have htrue := (expired_iff hexp0).mpr he0
    rw [hfalse] at htrue
    cases htrue
  have hsel : select_victim c = .ok r := by
    obtain ⟨t0, a0⟩ := e0
    simp only at he0 heq
    simp only [select_victim, hb, he0, if_true, heq]
  refine ⟨hsel, ?_, ?_⟩
  · have hgt : (c.mItems.length : Int) > to_size_t capacity := hover
    simp only [set_capacity, hshrink, if_true, set_capacity_loop, hgt, hsel, ok_bind]
    cases evict c r with
    | error e => rfl
    | ok c1 => simp only [ok_bind]
  · intro k val p e hd hready
    obtain ⟨h5, e5, _⟩ := evict_unlink hd hready
    exact ⟨_, e5, map_find_erase_self _ _⟩

/-- C3, witness: in the state of `main` with `TIME_LIMIT = 11` only `A` (priority 5,
expiry 11) is expired, `B` has the lower priority 4, and `set_capacity(4)` picks `A`. -/
theorem expired_record_evicted_first_witness :
    select_victim (main_state 5 11) = .ok 0 ∧
      set_capacity (main_state 5 11) 4 = (do
        let c1 ← evict (main_state 5 11) 0
        let c2 ← set_capacity_loop (main_state 5 11).heap.length c1 4
        pure { c2 with maxCapacity := 4 }) ∧
      (∃ c1, evict (main_state 5 11) 0 = .ok c1 ∧ map_find c1.mItems "A" = none) :=
  have w := expired_record_evicted_first (main_state 5 11) 0 4 (by decide)
    ⟨11, by decide, by decide⟩ (by decide) (by decide) (by decide) (by decide)
  ⟨w.1, w.2.1, w.2.2 "A" 12 5 11 (by decide) (by decide)⟩

/-- C4, failing input: with `TIME_LIMIT = 0` (nothing expired), after `set` of `A`, `C`
and `D` at priority 5 and then `get("A")`, the record the eviction loop picks is `A`, the
most recently touched one, not `C`, the least recently touched. -/
theorem touched_anchor_is_still_the_victim :
    (do
      let c ← run (setTimeLimit (new 5) 0)
        [.set "A" 12 5 11, .set "C" 12 5 13, .set "D" 12 5 14, .get "A"]
      let v ← select_victim c
      pure (dataOf c.heap v)) = Except.ok (some ("A", 12, 5, 11)) := by
  decide

/-- C5, failing input: the reference scenario. After the five `set` calls of `main` with
`TIME_LIMIT = 10`, `set_capacity(3)` picks `B`, the only member of its ring;
`list_remove` deletes it and `set_capacity` deletes it a second time. -/
theorem main_scenario_double_delete :
    run (setTimeLimit (new 5) 10) (main_sets ++ [.set_capacity 3]) = .error .doubleFree ∧
      select_victim (main_state 5 10) = .ok 1 ∧
      evict (main_state 5 10) 1 = .error .doubleFree := by
  decide

/-- C6: a `get` of a key that is not in the Key Index returns `nullptr` (the miss) without
a fault and leaves the whole state, the three maps, the rings and the capacity, as it was. -/
theorem get_miss (c : PECache) (key : String) (habs : map_find c.mItems key = none) :
    get c key = .ok (c, none) := by
  simp only [get, habs]
  rfl

/-- C6, witness: in the state of `main` the key `Z` is not cached and `get("Z")` misses. -/
theorem get_miss_witness :
    map_find (main_state 5 INT_MAX).mItems "Z" = none ∧
      get (main_state 5 INT_MAX) "Z" = .ok (main_state 5 INT_MAX, none) :=
  ⟨by decide, get_miss (main_state 5 INT_MAX) "Z" (by decide)⟩

/-- C7, counterexample: `set("A", 12, 101, 11)` on the empty cache does not fail; the
record is stored with priority 101. -/
theorem set_priority_101_succeeds :
    set_new (new 5) "A" 12 101 11 = .ok
      { TIME_LIMIT := INT_MAX, maxCapacity := 5,
        heap := [some ⟨"A", 12, 101, 11, some 0, some 0⟩],
        mItems := [("A", 0)], mExpireItems := [(11, 0)], mPriorityItems := [(101, 0)] } := by
  decide

/-- C7, as amended: `set` does not validate the priority. A `set` of a key that is not
cached, with a priority below 1 or above 100, succeeds like any other: no failure is
returned, the record is entered in the Key Index with the priority given and `size()`
grows by one (the ring links `list_push_back` follows being allocated). -/
theorem set_out_of_range_priority_stores (c : PECache) (key : String)
    (value priority expireTime : Int) (_hrange : priority < 1 ∨ 100 < priority)
    (habs : map_find c.mItems key = none) (hready : push_ready c priority = true) :
    ∃ c1, set_new c key value priority expireTime = .ok c1 ∧
      map_find c1.mItems key = some c.heap.length ∧
      dataOf c1.heap c.heap.length = some (key, value, priority, expireTime) ∧
      size c1 = size c + 1 := by
  obtain ⟨h1, dir1, e1, _, hdata, _⟩ :=
    @set_new_absent c key value priority expireTime habs hready
  refine ⟨_, e1, map_find_insert_self _ _ _ habs, ?_, ?_⟩
  · show dataOf h1 c.heap.length = _
    rw [hdata]; simp
  · simp [size, map_insert, habs]

/-- C7, witness: in the state of `main`, `set("Z", 7, 0, 99)` stores `Z` with priority 0. -/
theorem set_out_of_range_priority_stores_witness :
    ∃ c1, set_new (main_state 5 INT_MAX) "Z" 7 0 99 = .ok c1 ∧
      map_find c1.mItems "Z" = some 5 ∧
      dataOf c1.heap 5 = some ("Z", 7, 0, 99) ∧
      size c1 = size (main_state 5 INT_MAX) + 1 :=
  set_out_of_range_priority_stores (main_state 5 INT_MAX) "Z" 7 0 99 (by decide) (by decide)
    (by decide)

/-- C8: `set_capacity` with a capacity that is not below the stored one evicts nothing:
the maps, the records and `TIME_LIMIT` are as before, whatever `size()` is, and the
stored capacity becomes the new one. -/
theorem set_capacity_not_below (c : PECache) (capacity : Int)
    (hge : c.maxCapacity ≤ capacity) :
    set_capacity c capacity = .ok { c with maxCapacity := capacity } := by
  simp only [set_capacity, not_lt.mpr hge, if_false]
  rfl

/-- C8, witness: with five records and a stored capacity of 2, `set_capacity(3)` keeps
all five records although 5 > 3. -/
theorem set_capacity_not_below_witness :
    (main_state 2 INT_MAX).maxCapacity ≤ 3 ∧ (3 : Int) < size (main_state 2 INT_MAX) ∧
      set_capacity (main_state 2 INT_MAX) 3 = .ok (main_state 3 INT_MAX) :=
  ⟨by decide, by decide, set_capacity_not_below (main_state 2 INT_MAX) 3 (by decide)⟩

/-- C9, failing input: after `set("A", 12, 5, 11)` on the empty cache, `empty()` deletes
the record and leaves all three maps as they were, so `size()` is still 1 and a later
`get("A")` dereferences the deleted record. -/
theorem empty_keeps_the_maps :
    run (new 5) [.set "A" 12 5 11, .empty] = .ok
      { TIME_LIMIT := INT_MAX, maxCapacity := 5, heap := [none],
        mItems := [("A", 0)], mExpireItems := [(11, 0)], mPriorityItems := [(5, 0)] } ∧
    (run (new 5) [.set "A" 12 5 11, .empty]).map size = .ok 1 ∧
    run (new 5) [.set "A" 12 5 11, .empty, .get "A"] = .error .danglingDeref := by
  decide

/-- C10, failing input: after `set` of `A` and `C` at priority 5 and `get("C")`, the walk
from the anchor of ring 5 along `next` visits `A` only, while the Key Index holds `A` and
`C` at priority 5; along `prev` the anchor leads to `C`, whose `prev` is `C` itself. -/
theorem get_of_tail_breaks_ring :
    (do
      let c ← run (new 5) [.set "A" 12 5 11, .set "C" 12 5 13, .get "C"]
      let visited ← ring c 5
      pure (visited, cached_at c 5, prevOf c.heap 0, prevOf c.heap 1)) =
        Except.ok ([0], [0, 1], some (some 1), some (some 1)) := by
  decide

/-! ## Touch of a sole member -/

theorem heap_set_self {h : Heap} {a : Nat} {it : Item} (hc : cell h a = some it) :
    h.set a (some it) = h := by
  have hlt := cell_lt hc
  unfold cell at hc
  split at hc
  · rename_i x heq
    simp at hc
    subst hc
    apply List.ext_getElem?
    intro i
    by_cases hi : a = i
    · subst hi
      rw [List.getElem?_set_self hlt, heq]
    · rw [List.getElem?_set_ne hi]
  · cases hc

theorem store_id {h : Heap} {a : Nat} {it : Item} {f : Item → Item}
    (hc : cell h a = some it) (hf : f it = it) : store h (some a) f = .ok h := by
  simp only [store, hc, hf, heap_set_self hc]

/-- C19: `list_rebuild` on the only member of a ring, the anchor linked to itself in both
directions, returns the state it was given: the record's `prev` and `next` still point to
itself and the directory is untouched. -/
theorem list_rebuild_sole_member (c : PECache) (key : Int) (a : Nat) (it : Item)
    (hanchor : map_find c.mPriorityItems key = some a) (hc : cell c.heap a = some it)
    (hprev : it.prev = some a) (hnext : it.next = some a) :
    list_rebuild c key a = .ok c := by
  have hn : store c.heap (some a) (fun i => { i with next := some a }) = .ok c.heap :=
    store_id hc (by cases it; simp_all)
  have hp : store c.heap (some a) (fun i => { i with prev := some a }) = .ok c.heap :=
    store_id hc (by cases it; simp_all)
  simp only [list_rebuild, map_at, hanchor, ok_bind, load_of_cell hc, hprev, hnext, setNext,
    setPrev, hn, hp]
  rfl

/-- C19, witness: in the state of `main`, `E` is the only member of ring 6 and touching it
changes nothing. -/
theorem list_rebuild_sole_member_witness :
    list_rebuild (main_state 5 INT_MAX) 6 4 = .ok (main_state 5 INT_MAX) :=
  list_rebuild_sole_member (main_state 5 INT_MAX) 6 4 ⟨"E", 12, 6, 15, some 4, some 4⟩
    (by decide) (by decide) rfl rfl

/-! ## Collisions in the Expiry Index -/

theorem map_find_append {κ : Type} [DecidableEq κ] (m : List (κ × Nat)) (k k2 : κ) (v : Nat) :
    map_find (m ++ [(k, v)]) k2 =
      match map_find m k2 with
      | some x => some x
      | none => if k = k2 then some v else none := by
  induction m with
  | nil => simp [map_find]
  | cons e r ih =>
    obtain ⟨k1, v1⟩ := e
    by_cases hk : k1 = k2
    · simp [map_find, hk]
    · simp only [List.cons_append, map_find, hk, if_false]
      exact ih

theorem map_insert_of_some {κ : Type} [DecidableEq κ] {m : List (κ × Nat)} {k : κ} {x : Nat}
    (v : Nat) (h : map_find m k = some x) : map_insert m k v = m := by
  simp only [map_insert, h]

theorem map_find_insert_ne {κ : Type} [DecidableEq κ] (m : List (κ × Nat)) {k k2 : κ}
    (v : Nat) (hne : k2 ≠ k) : map_find (map_insert m k v) k2 = map_find m k2 := by
  unfold map_insert
  cases hk : map_find m k with
  | some x => rfl
  | none =>
    simp only
    rw [map_find_append]
    cases map_find m k2 with
    | some y => rfl
    | none => simp [Ne.symm hne]

theorem map_find_erase_ne {κ : Type} [DecidableEq κ] (m : List (κ × Nat)) {k k2 : κ}
    (hne : k2 ≠ k) : map_find (map_erase m k) k2 = map_find m k2 := by
  induction m with
  | nil => rfl
  | cons e r ih =>
    obtain ⟨k1, v1⟩ := e
    by_cases hk : k1 = k
    · have h1 : map_erase ((k1, v1) :: r) k = map_erase r k := by
        simp [map_erase, hk]
      have hk2 : ¬ k1 = k2 := by
        rw [hk]; exact Ne.symm hne
      rw [h1, ih]
      simp [map_find, hk2]
    · have h1 : map_erase ((k1, v1) :: r) k = (k1, v1) :: map_erase r k := by
        simp [map_erase, hk]
      rw [h1]
      simp only [map_find]
      rw [ih]

theorem map_insert_length {κ : Type} [DecidableEq κ] {m : List (κ × Nat)} {k : κ} (v : Nat)
    (h : map_find m k = none) : (map_insert m k v).length = m.length + 1 := by
  simp [map_insert, h]

/-- C18, counterexample: after `set("A", 12, 5, 11)` and `set("B", 12, 4, 11)` the Expiry
Index still maps 11 to `A` (cell 0); `B` (cell 1) has no entry. -/
theorem expiry_collision_keeps_first :
    run (new 5) [.set "A" 12 5 11, .set "B" 12 4 11] = .ok
      { TIME_LIMIT := INT_MAX, maxCapacity := 5,
        heap := [some ⟨"A", 12, 5, 11, some 0, some 0⟩, some ⟨"B", 12, 4, 11, some 1, some 1⟩],
        mItems := [("A", 0), ("B", 1)], mExpireItems := [(11, 0)],
        mPriorityItems := [(5, 0), (4, 1)] } := by
  decide

/-- C18, as amended: when a record `r1` cached under `key1` has the Expiry Index entry
for `t`, a `set` of another, not yet cached key with the same `expireTime = t` leaves
the Expiry Index as it was: `t` still maps to `r1` and the new record gets no entry
(`insert` does nothing on an existing key). The new record is entered in the Key Index
and `r1` stays in it. -/
theorem expiry_collision_keeps_entry (c : PECache) (key key1 : String)
    (value priority t : Int) (r1 : Nat)
    (hkey1 : map_find c.mItems key1 = some r1) (hentry : map_find c.mExpireItems t = some r1)
    (habs : map_find c.mItems key = none) (hready : push_ready c priority = true) :
    ∃ c1, set_new c key value priority t = .ok c1 ∧
      c1.mExpireItems = c.mExpireItems ∧ map_find c1.mExpireItems t = some r1 ∧
      map_find c1.mItems key = some c.heap.length ∧
      expireOf c1.heap c.heap.length = some t ∧
      map_find c1.mItems key1 = some r1 := by
  obtain ⟨h1, dir1, e1, _, hdata, _⟩ := @set_new_absent c key value priority t habs hready
  have hne : key1 ≠ key := by
    intro heq
    rw [heq, habs] at hkey1
    cases hkey1
  refine ⟨_, e1, map_insert_of_some _ hentry, ?_, map_find_insert_self _ _ _ habs, ?_, ?_⟩
  · show map_find (map_insert c.mExpireItems t c.heap.length) t = some r1
    rw [map_insert_of_some _ hentry, hentry]
  · show expireOf h1 c.heap.length = some t
    have hd := hdata c.heap.length
    simp only [if_true] at hd
    obtain ⟨it, hc, _, _, _, he⟩ := cell_of_dataOf hd
    simp [expireOf, hc, he]
  · show map_find (map_insert c.mItems key c.heap.length) key1 = some r1
    rw [map_find_insert_ne _ _ hne, hkey1]

/-- C18, witness: in the state of `main`, where `A` (cell 0) expires at 11,
`set("Z", 1, 9, 11)` leaves the entry for 11 on `A`. -/
theorem expiry_collision_keeps_entry_witness :
    ∃ c1, set_new (main_state 5 INT_MAX) "Z" 1 9 11 = .ok c1 ∧
      c1.mExpireItems = (main_state 5 INT_MAX).mExpireItems ∧
      map_find c1.mExpireItems 11 = some 0 ∧
      map_find c1.mItems "Z" = some (main_state 5 INT_MAX).heap.length ∧
      expireOf c1.heap (main_state 5 INT_MAX).heap.length = some 11 ∧
      map_find c1.mItems "A" = some 0 :=
  expiry_collision_keeps_entry (main_state 5 INT_MAX) "Z" "A" 1 9 11 0 (by decide) (by decide)
    (by decide) (by decide)

/-! ## `set` and the capacity -/

/-- A completed store that keeps the payload keeps every payload of the free store. -/
theorem store_data_inv {h h1 : Heap} {p : Ptr} {f : Item → Item}
    (hf : ∀ it, Item_data (f it) = Item_data it) (hs : store h p f = .ok h1) :
    ∀ b, dataOf h1 b = dataOf h b := by
  unfold store at hs
  cases p with
  | none => cases hs
  | some a =>
    simp only at hs
    cases hc : cell h a with
    | none => simp [hc] at hs
    | some it =>
      simp only [hc] at hs
      cases hs
      intro b
      simp only [dataOf, cell_set h a b _ (cell_lt hc)]
      by_cases hab : a = b
      · subst hab
        simp [hc, hf]
      · simp [hab]

theorem setNext_inv {h h1 : Heap} {p q : Ptr} (hs : setNext h p q = .ok h1) :
    ∀ b, dataOf h1 b = dataOf h b := by
  unfold setNext at hs
  refine store_data_inv ?_ hs
  intro it
  rfl

theorem setPrev_inv {h h1 : Heap} {p q : Ptr} (hs : setPrev h p q = .ok h1) :
    ∀ b, dataOf h1 b = dataOf h b := by
  unfold setPrev at hs
  refine store_data_inv ?_ hs
  intro it
  rfl

/-- Whatever `list_push_back` does when it returns: only links and the directory change. -/
theorem list_push_back_inv {c c1 : PECache} {p : Int} {a : Nat}
    (h : list_push_back c p a = .ok c1) :
    c1.mItems = c.mItems ∧ c1.mExpireItems = c.mExpireItems ∧
      c1.maxCapacity = c.maxCapacity ∧ c1.TIME_LIMIT = c.TIME_LIMIT ∧
      ∀ b, dataOf c1.heap b = dataOf c.heap b := by
  unfold list_push_back at h
  cases hf : map_find c.mPriorityItems p with
  | none =>
    simp only [hf] at h
    obtain ⟨h1, hs1, h⟩ := bind_ok_inv h
    obtain ⟨h2, hs2, h⟩ := bind_ok_inv h
    cases h
    refine ⟨rfl, rfl, rfl, rfl, fun b => ?_⟩
    show dataOf h2 b = _
    rw [setPrev_inv hs2 b, setNext_inv hs1 b]
  | some head =>
    simp only [hf] at h
    obtain ⟨hd, _, h⟩ := bind_ok_inv h
    obtain ⟨h1, hs1, h⟩ := bind_ok_inv h
    obtain ⟨h2, hs2, h⟩ := bind_ok_inv h
    obtain ⟨h3, hs3, h⟩ := bind_ok_inv h
    obtain ⟨h4, hs4, h⟩ := bind_ok_inv h
    cases h
    refine ⟨rfl, rfl, rfl, rfl, fun b => ?_⟩
    show dataOf h4 b = _
    rw [setPrev_inv hs4 b, setNext_inv hs3 b, setPrev_inv hs2 b, setNext_inv hs1 b]

/-- Whatever a `set` of a key that is not cached does when it returns: the key is
appended to the Key Index, the capacity is not touched. -/
theorem set_new_absent_inv {c c1 : PECache} {key : String} {value priority expireTime : Int}
    (habs : map_find c.mItems key = none)
    (h : set_new c key value priority expireTime = .ok c1) :
    c1.mItems = map_insert c.mItems key c.heap.length ∧
      c1.mExpireItems = map_insert c.mExpireItems expireTime c.heap.length ∧
      c1.maxCapacity = c.maxCapacity ∧ c1.TIME_LIMIT = c.TIME_LIMIT := by
  have hcell : cell (c.heap ++ [some ⟨key, value, priority, expireTime, none, none⟩])
      c.heap.length = some ⟨key, value, priority, expireTime, none, none⟩ := by
    rw [cell_append]; simp
  simp only [set_new, set, new_Item, load_of_cell hcell, ok_bind, habs] at h
  obtain ⟨c2, hpb, h⟩ := bind_ok_inv h
  obtain ⟨it1, hl, h⟩ := bind_ok_inv h
  cases h
  obtain ⟨m1, m2, m3, m4, hdata⟩ := list_push_back_inv hpb
  have hd : dataOf c2.heap c.heap.length = some (key, value, priority, expireTime) := by
    rw [hdata]
    simp [dataOf, hcell, Item_data]
  obtain ⟨it, hc, hk, _, _, he⟩ := cell_of_dataOf hd
  rw [load_of_cell hc] at hl
  cases hl
  refine ⟨?_, ?_, m3, m4⟩
  · show map_insert c2.mItems it1.key _ = _
    rw [m1, hk]
  · show map_insert c2.mExpireItems it1.expireTime _ = _
    rw [m2, he]

/-- C20: a `set` of a key that is not cached never evicts and never looks at the
capacity. Whenever it returns, `size()` has grown by one, the stored capacity is the same
and every other key is mapped as before, whatever `size()` and the capacity are; it does
return when the links `list_push_back` follows are allocated. So `size() <= capacity` is
no invariant: after two `set` calls on the empty cache of capacity 1, `size()` is 2. -/
theorem set_never_evicts (c : PECache) (key : String) (value priority expireTime : Int)
    (habs : map_find c.mItems key = none) :
    (∀ c1, set_new c key value priority expireTime = .ok c1 →
      size c1 = size c + 1 ∧ c1.maxCapacity = c.maxCapacity ∧
        ∀ k, k ≠ key → map_find c1.mItems k = map_find c.mItems k) ∧
    (push_ready c priority = true → ∃ c1, set_new c key value priority expireTime = .ok c1) ∧
    (∃ c2, run (new 1) [.set "A" 12 5 11, .set "B" 12 4 12] = .ok c2 ∧
      c2.maxCapacity < size c2) := by
  refine ⟨?_, ?_, ?_⟩
  · intro c1 h
    obtain ⟨m1, _, m3, _⟩ := set_new_absent_inv habs h
    refine ⟨?_, m3, fun k hk => ?_⟩
    · simp only [size, m1]
      exact map_insert_length _ habs
    · rw [m1]
      exact map_find_insert_ne _ _ hk
  · intro hready
    obtain ⟨h1, dir1, e1, _⟩ := @set_new_absent c key value priority expireTime habs hready
    exact ⟨_, e1⟩
  · exact ⟨{ TIME_LIMIT := INT_MAX, maxCapacity := 1,
             heap := [some ⟨"A", 12, 5, 11, some 0, some 0⟩,
               some ⟨"B", 12, 4, 12, some 1, some 1⟩],
             mItems := [("A", 0), ("B", 1)], mExpireItems := [(11, 0), (12, 1)],
             mPriorityItems := [(5, 0), (4, 1)] }, by decide, by decide⟩

/-- C20, witness: in the state of `main` with capacity 2 (already five records),
`set("Z", 1, 9, 99)` returns a state with six records and capacity 2. -/
theorem set_never_evicts_witness :
    ∃ c1, set_new (main_state 2 INT_MAX) "Z" 1 9 99 = .ok c1 ∧
      size c1 = size (main_state 2 INT_MAX) + 1 ∧ c1.maxCapacity = 2 ∧
      map_find c1.mItems "A" = some 0 :=
  have w := set_never_evicts (main_state 2 INT_MAX) "Z" 1 9 99 (by decide)
  have ⟨c1, h1⟩ := w.2.1 (by decide)
  ⟨c1, h1, (w.1 c1 h1).1, (w.1 c1 h1).2.1,
    ((w.1 c1 h1).2.2 "A" (by decide)).trans (by decide)⟩

/-! ## Rings after touch, removal and priority change -/

/-- C11, failing input: after `set` of `A` and `C` at priority 5 and `get("A")`, `C`
(cell 1) is in the Key Index and has its Expiry Index entry, but the ring of priority 5
read from its anchor holds `A` only. After `set` of `A` and `C` and `set_capacity(1)`,
`C` is the one cached record and the anchor of priority 5 is the deleted `A`. -/
theorem cached_record_outside_its_ring :
    (do
      let c ← run (new 5) [.set "A" 12 5 11, .set "C" 12 5 13, .get "A"]
      let members ← ring c 5
      pure (c.mItems, c.mExpireItems, members)) =
        Except.ok ([("A", 0), ("C", 1)], [(11, 0), (13, 1)], [0]) ∧
    (do
      let c ← run (new 5) [.set "A" 12 5 11, .set "C" 12 5 13, .set_capacity 1]
      pure (c.mItems, c.mPriorityItems, live c.heap 0)) =
        Except.ok ([("C", 1)], [(5, 0)], false) := by
  decide

/-- C12, failing input: the ring of priority 5 in the state of `main` is well formed and
reads `A, C, D` (cells 0, 2, 3). Touching the tail `D` leaves links that read `A, C` and
are no ring `A, C, D`; touching the anchor `A` leaves links that read `A` and are no ring
`C, D, A`. Only for the middle member `C` the result is the ring `A, D, C`. -/
theorem touch_of_tail_or_anchor_drops_members :
    is_ring (main_state 5 INT_MAX).heap 0 [2, 3] = true ∧
    ring (main_state 5 INT_MAX) 5 = .ok [0, 2, 3] ∧
    (list_rebuild (main_state 5 INT_MAX) 5 3 >>= fun c => ring c 5) = .ok [0, 2] ∧
    (list_rebuild (main_state 5 INT_MAX) 5 3).map (fun c => is_ring c.heap 0 [2, 3]) =
      .ok false ∧
    (list_rebuild (main_state 5 INT_MAX) 5 0 >>= fun c => ring c 5) = .ok [0] ∧
    (list_rebuild (main_state 5 INT_MAX) 5 0).map (fun c => is_ring c.heap 2 [3, 0]) =
      .ok false ∧
    (list_rebuild (main_state 5 INT_MAX) 5 2 >>= fun c => ring c 5) = .ok [0, 3, 2] ∧
    (list_rebuild (main_state 5 INT_MAX) 5 2).map (fun c => is_ring c.heap 0 [3, 2]) =
      .ok true := by
  decide

/-- C13, failing input: in the state of `main`, `list_remove(5, A)` on the anchor `A` of
the well-formed ring `A, C, D` leaves the ring `C, D`, but the directory entry of priority
5 stays on `A`, whose links are now `nullptr`, instead of moving to `C`; after the
eviction of `A` by `set_capacity(4)` the entry points to the deleted record. -/
theorem list_remove_keeps_removed_anchor :
    is_ring (main_state 5 INT_MAX).heap 0 [2, 3] = true ∧
    (list_remove (main_state 5 INT_MAX) 5 0).map (fun c => is_ring c.heap 2 [3]) =
      .ok true ∧
    (do
      let c ← list_remove (main_state 5 INT_MAX) 5 0
      pure (map_find c.mPriorityItems 5, prevOf c.heap 0, nextOf c.heap 0)) =
        Except.ok (some 0, some none, some none) ∧
    (do
      let c ← set_capacity (main_state 5 INT_MAX) 4
      pure (map_find c.mPriorityItems 5, live c.heap 0)) = Except.ok (some 0, false) := by
  decide

/-- C14, failing input: in the state of `main`, `set("C", 12, 7, 13)` moves `C` to
priority 7, which has no ring: `list_insert` looks the priority up with `at` and throws.
`set("B", 12, 7, 12)` on `B`, the only member of ring 4, writes to `B` after
`list_remove` has deleted it. `set("A", 12, 4, 11)` on the anchor `A` of ring 5 returns,
but the directory entry of priority 5 still points to `A`, now a member of ring 4. -/
theorem priority_change_faults :
    set_new (main_state 5 INT_MAX) "C" 12 7 13 = .error .outOfRange ∧
    set_new (main_state 5 INT_MAX) "B" 12 7 12 = .error .danglingDeref ∧
    (do
      let c ← set_new (main_state 5 INT_MAX) "A" 12 4 11
      let old_ring ← ring c 5
      pure (map_find c.mPriorityItems 5, old_ring)) = Except.ok (some 0, [0, 1]) := by
  decide

/-- C15, failing input: from the empty cache, with priorities in 1..100, distinct expiry
times and a capacity of 1: a priority change to a level without ring makes
`mPriorityItems.at` throw, and an eviction after a touch of the anchor fails the
assertion of `list_remove`. -/
theorem public_calls_reach_faults :
    run (new 5) [.set "A" 12 5 11, .set "C" 12 5 13, .set "C" 12 7 14] =
      .error .outOfRange ∧
    run (new 5) [.set "A" 12 5 13, .set "C" 12 5 11, .get "A", .set_capacity 1] =
      .error .assertFail := by
  decide

/-! ## Re-indexing the expiry of a cached key -/

theorem linksKept_append (h : Heap) (v : Option Item) : LinksKept h (h ++ [v]) :=
  fun _ hl => ⟨live_append v hl, prevOf_append_live v hl, nextOf_append_live v hl⟩

theorem prev_live_kept {h h1 : Heap} (hk : LinksKept h h1) {b : Nat}
    (hl : prev_live h b = true) : prev_live h1 b = true := by
  obtain ⟨t, hp, ht⟩ := prev_live_iff.mp hl
  obtain ⟨_, hp1, _⟩ := hk b (live_of_prevOf hp)
  exact prev_live_iff.mpr ⟨t, hp1.trans hp, (hk t ht).1⟩

theorem next_live_kept {h h1 : Heap} (hk : LinksKept h h1) {b : Nat}
    (hl : next_live h b = true) : next_live h1 b = true := by
  obtain ⟨t, hp, ht⟩ := next_live_iff.mp hl
  obtain ⟨_, _, hn1⟩ := hk b (live_of_nextOf hp)
  exact next_live_iff.mpr ⟨t, hn1.trans hp, (hk t ht).1⟩

theorem touch_ready_kept {c c1 : PECache} (hdir : c1.mPriorityItems = c.mPriorityItems)
    (hk : LinksKept c.heap c1.heap) {p : Int} {a : Nat} (hr : touch_ready c p a = true) :
    touch_ready c1 p a = true := by
  obtain ⟨head, hf, h1, h2, h3⟩ := touch_ready_iff.mp hr
  exact touch_ready_iff.mpr ⟨head, by rw [hdir]; exact hf, prev_live_kept hk h1,
    prev_live_kept hk h2, next_live_kept hk h3⟩

theorem unlink_ready_kept {c c1 : PECache} (hdir : c1.mPriorityItems = c.mPriorityItems)
    (hk : LinksKept c.heap c1.heap) {p : Int} {a : Nat} (hr : unlink_ready c p a = true) :
    unlink_ready c1 p a = true := by
  obtain ⟨head, q, hf, hn, hq, h2, h3⟩ := unlink_ready_iff.mp hr
  obtain ⟨_, _, hn1⟩ := hk head (live_of_nextOf hn)
  exact unlink_ready_iff.mpr ⟨head, q, by rw [hdir]; exact hf, hn1.trans hn, hq,
    prev_live_kept hk h2, next_live_kept hk h3⟩

theorem insert_ready_iff {c : PECache} {p : Int} {a : Nat} :
    insert_ready c p a = true ↔ ∃ head, map_find c.mPriorityItems p = some head ∧
      head ≠ a ∧ prev_live c.heap head = true := by
  unfold insert_ready
  cases map_find c.mPriorityItems p with
  | none => simp
  | some head => simp

theorem insert_ready_kept {c c1 : PECache} (hdir : c1.mPriorityItems = c.mPriorityItems)
    (hk : LinksKept c.heap c1.heap) {p : Int} {a : Nat} (hr : insert_ready c p a = true) :
    insert_ready c1 p a = true := by
  obtain ⟨head, hf, hne, h1⟩ := insert_ready_iff.mp hr
  exact insert_ready_iff.mpr ⟨head, by rw [hdir]; exact hf, hne, prev_live_kept hk h1⟩

/-- Success and effect of a store that leaves the links of the record alone. -/
theorem store_field_ok {h : Heap} {a : Nat} {it : Item} (f : Item → Item)
    (hc : cell h a = some it) (hp : (f it).prev = it.prev) (hn : (f it).next = it.next) :
    ∃ h1, store h (some a) f = .ok h1 ∧ h1.length = h.length ∧ LinksKept h h1 ∧
      (∀ b, cell h1 b = if a = b then some (f it) else cell h b) := by
  refine ⟨h.set a (some (f it)), by simp [store, hc], by simp, ?_, ?_⟩
  · intro b hl
    simp only [live, prevOf, nextOf, cell_set h a b _ (cell_lt hc)] at hl ⊢
    by_cases hab : a = b
    · subst hab
      simp [hc, hp, hn]
    · simp only [hab, if_false, and_self, and_true]
      exact hl
  · intro b
    exact cell_set h a b _ (cell_lt hc)

/-- Success and effect of `list_insert` on an allocated record. -/
theorem list_insert_ok {c : PECache} {key : Int} {a : Nat}
    (ha : live c.heap a = true) (hready : insert_ready c key a = true) :
    ∃ h4, list_insert c key a = .ok { c with heap := h4 } ∧ h4.length = c.heap.length ∧
      (∀ b, dataOf h4 b = dataOf c.heap b) := by
  obtain ⟨head, hf, _, hph⟩ := insert_ready_iff.mp hready
  obtain ⟨t, hhp, ht⟩ := prev_live_iff.mp hph
  obtain ⟨hd, hhd, hdp, hhdc⟩ := load_prev hhp
  have hhl : live c.heap head = true := live_of_prevOf hhp
  obtain ⟨h1, e1, s1⟩ := setNext_ok (some a) ht
  obtain ⟨h2, e2, s2⟩ := setPrev_ok (some t) ((nextSet_live s1 a).trans ha)
  obtain ⟨h3, e3, s3⟩ := setNext_ok (some head)
    ((prevSet_live s2 a).trans ((nextSet_live s1 a).trans ha))
  obtain ⟨h4, e4, s4⟩ := setPrev_ok (some a)
    ((nextSet_live s3 head).trans ((prevSet_live s2 head).trans
      ((nextSet_live s1 head).trans hhl)))
  refine ⟨h4, ?_, ?_, ?_⟩
  · simp only [list_insert, map_at, hf, hhd, hdp, e1, e2, e3, e4, ok_bind]
    rfl
  · rw [s4.1, s3.1, s2.1, s1.1]
  · intro b; rw [(s4.2 b).1, (s3.2 b).1, (s2.2 b).1, (s1.2 b).1]

/-- The unlinking branch of `list_remove` keeps the `prev` link of every other record
pointing to an allocated record. -/
theorem list_remove_unlink_prev {c : PECache} {p : Int} {a : Nat}
    (hready : unlink_ready c p a = true) :
    ∃ h4, list_remove c p a = .ok { c with heap := h4 } ∧ h4.length = c.heap.length ∧
      (∀ b, dataOf h4 b = dataOf c.heap b) ∧
      (∀ b, b ≠ a → prev_live c.heap b = true → prev_live h4 b = true) := by
  obtain ⟨head, q, hf, hhn, hq, hpa, hna⟩ := unlink_ready_iff.mp hready
  obtain ⟨hd, hhd, hdn⟩ := load_next hhn
  obtain ⟨x, hap, hx⟩ := prev_live_iff.mp hpa
  obtain ⟨y, han, hy⟩ := next_live_iff.mp hna
  obtain ⟨o, hoc, hop, hon⟩ := cell_of_links hap han
  have hal : live c.heap a = true := live_of_prevOf hap
  obtain ⟨h1, e1, s1⟩ := setNext_ok (some y) hx
  have ha1p : prevOf h1 a = some (some x) := by rw [(s1.2 a).2.1, hap]
  have ha1n : nextOf h1 a = some (some y) := by
    rw [(s1.2 a).2.2, han]; simp
  obtain ⟨o2, ho2c, ho2p, ho2n⟩ := cell_of_links ha1p ha1n
  obtain ⟨h2, e2, s2⟩ := setPrev_ok (some x) ((nextSet_live s1 y).trans hy)
  obtain ⟨h3, e3, s3⟩ := setPrev_ok none
    ((prevSet_live s2 a).trans ((nextSet_live s1 a).trans hal))
  obtain ⟨h4, e4, s4⟩ := setNext_ok none
    ((prevSet_live s3 a).trans ((prevSet_live s2 a).trans ((nextSet_live s1 a).trans hal)))
  have hlive : ∀ b, live h4 b = live c.heap b := fun b =>
    (nextSet_live s4 b).trans ((prevSet_live s3 b).trans ((prevSet_live s2 b).trans
      (nextSet_live s1 b)))
  refine ⟨h4, ?_, ?_, ?_, ?_⟩
  · have hne : ¬ hd.next = some head := by rw [hdn]; exact hq
    simp only [list_remove, map_at, hf, ok_bind, hhd, hne, if_false, load_of_cell hoc, hop,
      hon, e1, load_of_cell ho2c, ho2p, ho2n, e2, e3, e4]
    rfl
  · rw [s4.1, s3.1, s2.1, s1.1]
  · intro b
    rw [(s4.2 b).1, (s3.2 b).1, (s2.2 b).1, (s1.2 b).1]
  · intro b hba hpl
    obtain ⟨t, hbp, ht⟩ := prev_live_iff.mp hpl
    have hp4 : prevOf h4 b = if y = b then some (some x) else prevOf c.heap b := by
      rw [(s4.2 b).2.1, (s3.2 b).2.2, if_neg (Ne.symm hba), (s2.2 b).2.2, (s1.2 b).2.1]
    by_cases hyb : y = b
    · rw [if_pos hyb] at hp4
      exact prev_live_iff.mpr ⟨x, hp4, (hlive x).trans hx⟩
    · rw [if_neg hyb] at hp4
      exact prev_live_iff.mpr ⟨t, hp4.trans hbp, (hlive t).trans ht⟩

/-- The Expiry Index after `erase(old)` and `insert({new, a})` with an unused `new`. -/
theorem reindex_facts (m : List (Int × Nat)) (oe e : Int) (a : Nat) (hne : oe ≠ e)
    (hfree : map_find m e = none) :
    map_find (map_insert (map_erase m oe) e a) oe = none ∧
      map_find (map_insert (map_erase m oe) e a) e = some a ∧
      ∀ t, t ≠ oe → t ≠ e →
        map_find (map_insert (map_erase m oe) e a) t = map_find m t := by
  refine ⟨?_, ?_, ?_⟩
  · rw [map_find_insert_ne _ _ hne, map_find_erase_self]
  · apply map_find_insert_self
    rw [map_find_erase_ne _ (Ne.symm hne), hfree]
  · intro t h1 h2
    rw [map_find_insert_ne _ _ h2, map_find_erase_ne _ h1]

theorem expireOf_of_dataOf {h : Heap} {a : Nat} {k : String} {v p e : Int}
    (hd : dataOf h a = some (k, v, p, e)) : expireOf h a = some e := by
  obtain ⟨it, hc, _, _, _, he⟩ := cell_of_dataOf hd
  simp [expireOf, hc, he]

theorem linksKept_trans {h h1 h2 : Heap} (h01 : LinksKept h h1) (h12 : LinksKept h1 h2) :
    LinksKept h h2 := by
  intro b hl
  obtain ⟨l1, p1, n1⟩ := h01 b hl
  obtain ⟨l2, p2, n2⟩ := h12 b l1
  exact ⟨l2, p2.trans p1, n2.trans n1⟩

/-- A `set` of a cached key with a new, unused `expireTime`: success and the state it
returns, up to the free store. -/
theorem set_new_expire_change {c : PECache} {key : String} {value priority expireTime : Int}
    {a : Nat} {old : Item}
    (hf : map_find c.mItems key = some a) (hc : cell c.heap a = some old)
    (hne : old.expireTime ≠ expireTime)
    (hready : upsert_ready c old.priority priority a = true) :
    ∃ h9, set_new c key value priority expireTime = .ok { c with
        heap := h9,
        mExpireItems := map_insert (map_erase c.mExpireItems old.expireTime) expireTime a } ∧
      dataOf h9 a = some (old.key, old.value, priority, expireTime) := by
  have hcell0 : cell (c.heap ++ [some ⟨key, value, priority, expireTime, none, none⟩])
      c.heap.length = some ⟨key, value, priority, expireTime, none, none⟩ := by
    rw [cell_append]; simp
  have hal : live c.heap a = true := by simp [live, hc]
  have hna : a ≠ c.heap.length := Nat.ne_of_lt (cell_lt hc)
  have hoc0 : cell (c.heap ++ [some ⟨key, value, priority, expireTime, none, none⟩]) a =
      some old := by
    rw [cell_append_live _ hal, hc]
  obtain ⟨h1, es1, _, lk1, cell1⟩ := store_field_ok
    (fun o => { o with expireTime := expireTime }) hoc0 rfl rfl
  have hn1 : cell h1 c.heap.length = some ⟨key, value, priority, expireTime, none, none⟩ := by
    rw [cell1, if_neg hna, hcell0]
  have ha1 : cell h1 a = some { old with expireTime := expireTime } := by
    rw [cell1, if_pos rfl]
  have lk : LinksKept c.heap h1 := linksKept_trans (linksKept_append _ _) lk1
  have hcond : ¬ (old.expireTime = expireTime ∧ old.priority = priority) := fun h => hne h.1
  unfold upsert_ready at hready
  by_cases hp : old.priority = priority
  · rw [if_pos hp] at hready
    have hr1 : touch_ready { c with
        heap := h1,
        mExpireItems := map_insert (map_erase c.mExpireItems old.expireTime) expireTime a }
        priority a = true := by
      refine touch_ready_kept ?_ lk hready
      rfl
    obtain ⟨h6, e6, _, hdata, _⟩ := list_rebuild_ready hr1
    refine ⟨h6, ?_, ?_⟩
    · simp only [set_new, set, new_Item, load_of_cell hcell0, ok_bind, hf, load_of_cell hoc0,
        hcond, if_false, ne_eq, hne, not_false_eq_true, if_true, es1, load_of_cell hn1,
        load_of_cell ha1, hp, not_true_eq_false]
      exact e6
    · rw [hdata a]
      show dataOf h1 a = _
      simp [dataOf, ha1, Item_data, hp]
  · rw [if_neg hp] at hready
    simp only [Bool.and_eq_true] at hready
    obtain ⟨hur, hir⟩ := hready
    have hur1 : unlink_ready { c with
        heap := h1,
        mExpireItems := map_insert (map_erase c.mExpireItems old.expireTime) expireTime a }
        old.priority a = true := by
      refine unlink_ready_kept ?_ lk hur
      rfl
    have hir1 : insert_ready { c with
        heap := h1,
        mExpireItems := map_insert (map_erase c.mExpireItems old.expireTime) expireTime a }
        priority a = true := by
      refine insert_ready_kept ?_ lk hir
      rfl
    obtain ⟨h4, e4, _, hdata4, hprev4⟩ := list_remove_unlink_prev hur1
    have hn4 : dataOf h4 c.heap.length = some (key, value, priority, expireTime) := by
      rw [hdata4]
      simp [dataOf, hn1, Item_data]
    obtain ⟨it2, hc2, _, _, hp2, _⟩ := cell_of_dataOf hn4
    have ha4d : dataOf h4 a = some (old.key, old.value, old.priority, expireTime) := by
      rw [hdata4]
      simp [dataOf, ha1, Item_data]
    obtain ⟨o4, ho4, hk4, hv4, _, he4⟩ := cell_of_dataOf ha4d
    obtain ⟨h5, es5, _, lk5, cell5⟩ := store_field_ok
      (fun o => { o with priority := priority }) ho4 rfl rfl
    have ha5 : cell h5 a = some { o4 with priority := priority } := by
      rw [cell5, if_pos rfl]
    obtain ⟨head2, hf2, hne2, hpl2⟩ := insert_ready_iff.mp hir1
    have hir5 : insert_ready { c with
        heap := h5,
        mExpireItems := map_insert (map_erase c.mExpireItems old.expireTime) expireTime a }
        priority a = true :=
      insert_ready_iff.mpr ⟨head2, hf2, hne2, prev_live_kept lk5 (hprev4 head2 hne2 hpl2)⟩
    have hal5 : live h5 a = true := by simp [live, ha5]
    obtain ⟨h9, e9, _, hdata9⟩ := list_insert_ok hal5 hir5
    refine ⟨h9, ?_, ?_⟩
    · simp only [set_new, set, new_Item, load_of_cell hcell0, ok_bind, hf, load_of_cell hoc0,
        hcond, if_false, ne_eq, hne, not_false_eq_true, if_true, es1, load_of_cell hn1,
        load_of_cell ha1, hp, e4, load_of_cell hc2, hp2, es5, load_of_cell ha5]
      exact e9
    · rw [hdata9 a]
      show dataOf h5 a = _
      simp [dataOf, ha5, Item_data, hk4, hv4, he4]

/-- Re-indexing where the call completes: a `set` of a cached key with an `expireTime`
that differs from the record's and has no Expiry Index entry yet leaves no entry under
the old `expireTime`, maps the new one to the same record, sets the record's `expireTime`
field and keeps every other entry. The call completes when the ring links it follows are
allocated (`upsert_ready`): always for an unchanged priority in a well-formed ring, for a
changed priority only when the record is unlinked by the second branch of `list_remove`
and the new priority has a ring. -/
theorem set_reindexes_expiry (c : PECache) (key : String) (value priority expireTime : Int)
    (a : Nat) (old : Item)
    (hf : map_find c.mItems key = some a) (hc : cell c.heap a = some old)
    (hne : old.expireTime ≠ expireTime)
    (hfree : map_find c.mExpireItems expireTime = none)
    (hready : upsert_ready c old.priority priority a = true) :
    ∃ c1, set_new c key value priority expireTime = .ok c1 ∧
      map_find c1.mExpireItems old.expireTime = none ∧
      map_find c1.mExpireItems expireTime = some a ∧
      expireOf c1.heap a = some expireTime ∧
      ∀ t, t ≠ old.expireTime → t ≠ expireTime →
        map_find c1.mExpireItems t = map_find c.mExpireItems t := by
  obtain ⟨h9, e9, hd9⟩ := @set_new_expire_change c key value priority expireTime a old hf hc
    hne hready
  obtain ⟨r1, r2, r3⟩ := reindex_facts c.mExpireItems old.expireTime expireTime a hne hfree
  exact ⟨_, e9, r1, r2, expireOf_of_dataOf hd9, r3⟩

/-- Two calls that complete: in the state of `main`, `set("C", 12, 5, 20)` (same
priority) and `set("C", 12, 4, 20)` (priority changed to the ring of `B`) both move the
Expiry Index entry of `C` (cell 2) from 13 to 20. -/
theorem set_reindexes_expiry_witness :
    (∃ c1, set_new (main_state 5 INT_MAX) "C" 12 5 20 = .ok c1 ∧
      map_find c1.mExpireItems 13 = none ∧ map_find c1.mExpireItems 20 = some 2 ∧
      expireOf c1.heap 2 = some 20 ∧ map_find c1.mExpireItems 11 = some 0) ∧
    (∃ c1, set_new (main_state 5 INT_MAX) "C" 12 4 20 = .ok c1 ∧
      map_find c1.mExpireItems 13 = none ∧ map_find c1.mExpireItems 20 = some 2 ∧
      expireOf c1.heap 2 = some 20 ∧ map_find c1.mExpireItems 11 = some 0) :=
  have ⟨c1, h1, h2, h3, h4, h5⟩ := set_reindexes_expiry (main_state 5 INT_MAX) "C" 12 5 20 2
    ⟨"C", 12, 5, 13, some 0, some 3⟩ (by decide) (by decide) (by decide) (by decide)
    (by decide)
  have ⟨c2, k1, k2, k3, k4, k5⟩ := set_reindexes_expiry (main_state 5 INT_MAX) "C" 12 4 20 2
    ⟨"C", 12, 5, 13, some 0, some 3⟩ (by decide) (by decide) (by decide) (by decide)
    (by decide)
  ⟨⟨c1, h1, h2, h3, h4, (h5 11 (by decide) (by decide)).trans (by decide)⟩,
   ⟨c2, k1, k2, k3, k4, (k5 11 (by decide) (by decide)).trans (by decide)⟩⟩

/-- C17, failing input: the state of `main` is consistent (its three rings are well
formed and every cached record has its own Expiry Index entry), 20 is used by no record
and differs from the expiry 13 of `C` and 12 of `B`. `set("C", 12, 7, 20)` erases entry
13, inserts entry 20 and then throws in `list_insert`, whose `at(7)` finds no ring;
`set("B", 12, 7, 20)` writes to `B` after `list_remove` has deleted it. Neither call
returns a state. -/
theorem reindexing_call_faults_on_priority_change :
    is_ring (main_state 5 INT_MAX).heap 0 [2, 3] = true ∧
    is_ring (main_state 5 INT_MAX).heap 1 [] = true ∧
    is_ring (main_state 5 INT_MAX).heap 4 [] = true ∧
    (main_state 5 INT_MAX).mItems.map
        (fun (kv : String × Nat) =>
          (expireOf (main_state 5 INT_MAX).heap kv.2).bind
            (map_find (main_state 5 INT_MAX).mExpireItems)) =
      [some 0, some 1, some 2, some 3, some 4] ∧
    map_find (main_state 5 INT_MAX).mExpireItems 20 = none ∧
    set_new (main_state 5 INT_MAX) "C" 12 7 20 = .error .outOfRange ∧
    set_new (main_state 5 INT_MAX) "B" 12 7 20 = .error .danglingDeref := by
  decide

/-! ## Insertion keeps the rings in order -/

theorem linked_iff {h : Heap} {x y : Nat} :
    linked h x y = true ↔ nextOf h x = some (some y) ∧ prevOf h y = some (some x) := by
  simp [linked]

/-- Precise effect of `list_push_back` when the priority has no ring. -/
theorem list_push_back_fresh {c : PECache} {key : Int} {a : Nat}
    (hf : map_find c.mPriorityItems key = none) (ha : live c.heap a = true) :
    ∃ h2, list_push_back c key a = .ok { c with
        mPriorityItems := map_insert c.mPriorityItems key a, heap := h2 } ∧
      h2.length = c.heap.length ∧ (∀ b, dataOf h2 b = dataOf c.heap b) ∧
      (∀ b, nextOf h2 b = if a = b then some (some a) else nextOf c.heap b) ∧
      (∀ b, prevOf h2 b = if a = b then some (some a) else prevOf c.heap b) := by
  obtain ⟨h1, e1, s1⟩ := setNext_ok (some a) ha
  obtain ⟨h2, e2, s2⟩ := setPrev_ok (some a) ((nextSet_live s1 a).trans ha)
  refine ⟨h2, ?_, ?_, ?_, ?_, ?_⟩
  · simp only [list_push_back, hf, e1, e2, ok_bind]
    rfl
  · rw [s2.1, s1.1]
  · intro b; rw [(s2.2 b).1, (s1.2 b).1]
  · intro b; rw [(s2.2 b).2.1, (s1.2 b).2.2]
  · intro b; rw [(s2.2 b).2.2, (s1.2 b).2.1]

/-- Precise effect of `list_push_back` when the priority has a ring with anchor `head`
and tail `t`. -/
theorem list_push_back_splice {c : PECache} {key : Int} {a head t : Nat}
    (hf : map_find c.mPriorityItems key = some head)
    (hhp : prevOf c.heap head = some (some t)) (ht : live c.heap t = true)
    (ha : live c.heap a = true) :
    ∃ h4, list_push_back c key a = .ok { c with heap := h4 } ∧
      h4.length = c.heap.length ∧ (∀ b, dataOf h4 b = dataOf c.heap b) ∧
      (∀ b, nextOf h4 b = if a = b then some (some head) else
        if t = b then some (some a) else nextOf c.heap b) ∧
      (∀ b, prevOf h4 b = if head = b then some (some a) else
        if a = b then some (some t) else prevOf c.heap b) := by
  obtain ⟨hd, hhd, hdp, hhdc⟩ := load_prev hhp
  have hhl : live c.heap head = true := live_of_prevOf hhp
  obtain ⟨h1, e1, s1⟩ := setNext_ok (some a) ht
  obtain ⟨h2, e2, s2⟩ := setPrev_ok (some t) ((nextSet_live s1 a).trans ha)
  obtain ⟨h3, e3, s3⟩ := setNext_ok (some head)
    ((prevSet_live s2 a).trans ((nextSet_live s1 a).trans ha))
  obtain ⟨h4, e4, s4⟩ := setPrev_ok (some a)
    ((nextSet_live s3 head).trans ((prevSet_live s2 head).trans
      ((nextSet_live s1 head).trans hhl)))
  refine ⟨h4, ?_, ?_, ?_, ?_, ?_⟩
  · simp only [list_push_back, hf, hhd, hdp, e1, e2, e3, e4, ok_bind]
    rfl
  · rw [s4.1, s3.1, s2.1, s1.1]
  · intro b; rw [(s4.2 b).1, (s3.2 b).1, (s2.2 b).1, (s1.2 b).1]
  · intro b; rw [(s4.2 b).2.1, (s3.2 b).2.2, (s2.2 b).2.1, (s1.2 b).2.2]
  · intro b; rw [(s4.2 b).2.2, (s3.2 b).2.1, (s2.2 b).2.2, (s1.2 b).2.1]

theorem links_append (h : Heap) (it : Item) (b : Nat) (hb : b ≠ h.length) :
    nextOf (h ++ [some it]) b = nextOf h b ∧ prevOf (h ++ [some it]) b = prevOf h b ∧
      dataOf (h ++ [some it]) b = dataOf h b := by
  simp only [nextOf, prevOf, dataOf, cell_append, if_neg hb, and_self]

/-- A `set` of a key that is not cached, at a priority without ring: the state returned
and the links of its free store. -/
theorem set_new_fresh_ring {c : PECache} {key : String} {value priority expireTime : Int}
    (habs : map_find c.mItems key = none)
    (hf : map_find c.mPriorityItems priority = none) :
    ∃ h2, set_new c key value priority expireTime = .ok { c with
        heap := h2, mItems := map_insert c.mItems key c.heap.length,
        mExpireItems := map_insert c.mExpireItems expireTime c.heap.length,
        mPriorityItems := map_insert c.mPriorityItems priority c.heap.length } ∧
      h2.length = c.heap.length + 1 ∧
      (∀ b, dataOf h2 b = if b = c.heap.length then some (key, value, priority, expireTime)
        else dataOf c.heap b) ∧
      (∀ b, nextOf h2 b = if b = c.heap.length then some (some c.heap.length)
        else nextOf c.heap b) ∧
      (∀ b, prevOf h2 b = if b = c.heap.length then some (some c.heap.length)
        else prevOf c.heap b) := by
  have hcell : cell (c.heap ++ [some ⟨key, value, priority, expireTime, none, none⟩])
      c.heap.length = some ⟨key, value, priority, expireTime, none, none⟩ := by
    rw [cell_append]; simp
  have hlive : live (new_Item c key value priority expireTime).1.heap c.heap.length = true := by
    simp [live, new_Item, hcell]
  obtain ⟨h2, e2, hlen, hdata, hnext, hprev⟩ :=
    @list_push_back_fresh (new_Item c key value priority expireTime).1 priority
      c.heap.length hf hlive
  have hd0 : ∀ b, dataOf h2 b = if b = c.heap.length then
      some (key, value, priority, expireTime) else dataOf c.heap b := by
    intro b
    rw [hdata b]
    simp only [new_Item, dataOf, cell_append]
    by_cases hb : b = c.heap.length <;> simp [hb, Item_data]
  obtain ⟨it1, hc1, hk1, _, _, he1⟩ := cell_of_dataOf ((hd0 c.heap.length).trans (if_pos rfl))
  refine ⟨h2, ?_, ?_, hd0, ?_, ?_⟩
  · simp only [set_new, set, new_Item] at e2 ⊢
    simp only [load_of_cell hcell, ok_bind, habs, e2, load_of_cell hc1, hk1, he1]
    rfl
  · rw [hlen]; simp [new_Item]
  · intro b
    rw [hnext b]
    by_cases hb : b = c.heap.length
    · simp [hb]
    · rw [if_neg (Ne.symm hb), if_neg hb]
      exact (links_append c.heap _ b hb).1
  · intro b
    rw [hprev b]
    by_cases hb : b = c.heap.length
    · simp [hb]
    · rw [if_neg (Ne.symm hb), if_neg hb]
      exact (links_append c.heap _ b hb).2.1

/-- A `set` of a key that is not cached, at a priority whose ring has anchor `head` and
tail `t`: the state returned and the links of its free store. -/
theorem set_new_splice {c : PECache} {key : String} {value priority expireTime : Int}
    {head t : Nat} (habs : map_find c.mItems key = none)
    (hf : map_find c.mPriorityItems priority = some head)
    (hhp : prevOf c.heap head = some (some t)) (ht : live c.heap t = true) :
    ∃ h4, set_new c key value priority expireTime = .ok { c with
        heap := h4, mItems := map_insert c.mItems key c.heap.length,
        mExpireItems := map_insert c.mExpireItems expireTime c.heap.length } ∧
      h4.length = c.heap.length + 1 ∧
      (∀ b, dataOf h4 b = if b = c.heap.length then some (key, value, priority, expireTime)
        else dataOf c.heap b) ∧
      (∀ b, nextOf h4 b = if b = c.heap.length then some (some head) else
        if b = t then some (some c.heap.length) else nextOf c.heap b) ∧
      (∀ b, prevOf h4 b = if b = head then some (some c.heap.length) else
        if b = c.heap.length then some (some t) else prevOf c.heap b) := by
  have hcell : cell (c.heap ++ [some ⟨key, value, priority, expireTime, none, none⟩])
      c.heap.length = some ⟨key, value, priority, expireTime, none, none⟩ := by
    rw [cell_append]; simp
  have hlive : live (new_Item c key value priority expireTime).1.heap c.heap.length = true := by
    simp [live, new_Item, hcell]
  have hhl : live c.heap head = true := live_of_prevOf hhp
  have hhn : head ≠ c.heap.length := Nat.ne_of_lt (live_lt hhl)
  have htn : t ≠ c.heap.length := Nat.ne_of_lt (live_lt ht)
  have hhp0 : prevOf (new_Item c key value priority expireTime).1.heap head =
      some (some t) := by
    simp only [new_Item]
    rw [(links_append c.heap _ head hhn).2.1, hhp]
  have ht0 : live (new_Item c key value priority expireTime).1.heap t = true :=
    live_append _ ht
  obtain ⟨h4, e4, hlen, hdata, hnext, hprev⟩ :=
    @list_push_back_splice (new_Item c key value priority expireTime).1 priority
      c.heap.length head t hf hhp0 ht0 hlive
  have hd0 : ∀ b, dataOf h4 b = if b = c.heap.length then
      some (key, value, priority, expireTime) else dataOf c.heap b := by
    intro b
    rw [hdata b]
    simp only [new_Item, dataOf, cell_append]
    by_cases hb : b = c.heap.length <;> simp [hb, Item_data]
  obtain ⟨it1, hc1, hk1, _, _, he1⟩ := cell_of_dataOf ((hd0 c.heap.length).trans (if_pos rfl))
  refine ⟨h4, ?_, ?_, hd0, ?_, ?_⟩
  · simp only [set_new, set, new_Item] at e4 ⊢
    simp only [load_of_cell hcell, ok_bind, habs, e4, load_of_cell hc1, hk1, he1]
    rfl
  · rw [hlen]; simp [new_Item]
  · intro b
    rw [hnext b]
    by_cases hb : b = c.heap.length
    · simp [hb]
    · rw [if_neg (Ne.symm hb), if_neg hb]
      by_cases hbt : b = t
      · simp [hbt]
      · rw [if_neg (Ne.symm hbt), if_neg hbt]
        exact (links_append c.heap _ b hb).1
  · intro b
    rw [hprev b]
    by_cases hbh : b = head
    · simp [hbh]
    · rw [if_neg (Ne.symm hbh), if_neg hbh]
      by_cases hb : b = c.heap.length
      · simp [hb]
      · rw [if_neg (Ne.symm hb), if_neg hb]
        exact (links_append c.heap _ b hb).2.1

/-- A chain only depends on the `next` links of its members and on the `prev` links of
their successors. -/
theorem ring_chain_congr {h h1 : Heap} {x : Nat} {l : List Nat} {z : Nat}
    (hn : ∀ b ∈ x :: l, nextOf h1 b = nextOf h b)
    (hp : ∀ b ∈ l ++ [z], prevOf h1 b = prevOf h b) :
    ring_chain h1 x l z = ring_chain h x l z := by
  induction l generalizing x with
  | nil =>
    simp only [ring_chain, linked]
    rw [hn x (by simp), hp z (by simp)]
  | cons y r ih =>
    simp only [ring_chain, linked]
    rw [hn x (by simp), hp y (by simp)]
    rw [ih (fun b hb => hn b (List.mem_cons_of_mem _ hb))
      (fun b hb => hp b (by simp only [List.cons_append, List.mem_cons]; exact Or.inr hb))]

/-- The `prev` link of the record a chain ends at points to a member of the chain. -/
theorem ring_chain_last {h : Heap} {x : Nat} {l : List Nat} {z : Nat}
    (hch : ring_chain h x l z = true) :
    ∃ t, prevOf h z = some (some t) ∧ t ∈ x :: l := by
  induction l generalizing x with
  | nil =>
    simp only [ring_chain] at hch
    exact ⟨x, (linked_iff.mp hch).2, by simp⟩
  | cons y r ih =>
    simp only [ring_chain, Bool.and_eq_true] at hch
    obtain ⟨t, ht, hmem⟩ := ih hch.2
    exact ⟨t, ht, List.mem_cons_of_mem _ hmem⟩

/-- Every member of a chain is allocated. -/
theorem ring_chain_live {h : Heap} {x : Nat} {l : List Nat} {z : Nat}
    (hch : ring_chain h x l z = true) : ∀ b ∈ x :: l, live h b = true := by
  induction l generalizing x with
  | nil =>
    simp only [ring_chain] at hch
    intro b hb
    simp only [List.mem_singleton] at hb
    subst hb
    exact live_of_nextOf (linked_iff.mp hch).1
  | cons y r ih =>
    simp only [ring_chain, Bool.and_eq_true] at hch
    intro b hb
    rcases List.mem_cons.mp hb with rfl | hb
    · exact live_of_nextOf (linked_iff.mp hch.1).1
    · exact ih hch.2 b hb

/-- Splicing a new record `a` between the tail `t` and the anchor `z` extends a chain that
ends at `z` by `a`. -/
theorem ring_chain_push {h h1 : Heap} {x : Nat} {l : List Nat} {z a t : Nat}
    (hch : ring_chain h x l z = true) (hnd : (x :: l).Nodup) (hz : z ∉ l)
    (ha : a ∉ x :: l) (haz : a ≠ z) (ht : prevOf h z = some (some t))
    (hnext : ∀ b, nextOf h1 b = if b = a then some (some z) else
      if b = t then some (some a) else nextOf h b)
    (hprev : ∀ b, prevOf h1 b = if b = z then some (some a) else
      if b = a then some (some t) else prevOf h b) :
    ring_chain h1 x (l ++ [a]) z = true := by
  induction l generalizing x with
  | nil =>
    simp only [ring_chain] at hch
    obtain ⟨hxn, hzp⟩ := linked_iff.mp hch
    have hxt : t = x := by
      rw [ht] at hzp
      simpa using hzp
    have hxa : x ≠ a := fun e => ha (by simp [e])
    simp only [List.nil_append, ring_chain, Bool.and_eq_true]
    refine ⟨linked_iff.mpr ⟨?_, ?_⟩, linked_iff.mpr ⟨?_, ?_⟩⟩
    · rw [hnext x, if_neg hxa, if_pos hxt.symm]
    · rw [hprev a, if_neg haz, if_pos rfl, hxt]
    · rw [hnext a, if_pos rfl]
    · rw [hprev z, if_pos rfl]
  | cons y r ih =>
    simp only [ring_chain, Bool.and_eq_true] at hch
    obtain ⟨hxy, hrest⟩ := hch
    obtain ⟨hxn, hyp⟩ := linked_iff.mp hxy
    have hnd2 : (y :: r).Nodup := (List.nodup_cons.mp hnd).2
    have hxnot : x ∉ y :: r := (List.nodup_cons.mp hnd).1
    obtain ⟨t2, ht2, hmem⟩ := ring_chain_last hrest
    have htt : t2 = t := by
      rw [ht] at ht2
      simpa using ht2.symm
    have hxt : x ≠ t := by
      intro e
      rw [← e] at htt
      rw [htt] at hmem
      exact hxnot hmem
    have hxa : x ≠ a := fun e => ha (by simp [e])
    have hya : y ≠ a := fun e => ha (by simp [e])
    have hyz : y ≠ z := fun e => hz (by simp [e])
    simp only [List.cons_append, ring_chain, Bool.and_eq_true]
    refine ⟨linked_iff.mpr ⟨?_, ?_⟩, ?_⟩
    · rw [hnext x, if_neg hxa, if_neg hxt, hxn]
    · rw [hprev y, if_neg hyz, if_neg hya, hyp]
    · exact ih hrest hnd2 (fun hm => hz (List.mem_cons_of_mem _ hm))
        (fun hm => ha (List.mem_cons_of_mem _ hm))

theorem is_ring_iff {h : Heap} {head : Nat} {rest : List Nat} :
    is_ring h head rest = true ↔ (head :: rest).Nodup ∧ ring_chain h head rest head = true := by
  simp [is_ring]

/-- The walk of `print` along a chain that ends at the anchor visits the chain. -/
theorem ring_walk_chain {h : Heap} {x : Nat} {l : List Nat} {z : Nat} {fuel : Nat}
    (hch : ring_chain h x l z = true) (hz : z ∉ l) (hfuel : l.length < fuel) :
    ring_walk h z fuel x = .ok (x :: l) := by
  induction l generalizing x fuel with
  | nil =>
    simp only [ring_chain] at hch
    obtain ⟨it, hl, hn⟩ := load_next (linked_iff.mp hch).1
    cases fuel with
    | zero => simp at hfuel
    | succ f =>
      simp only [ring_walk, hl, ok_bind, hn, if_true]
      rfl
  | cons y r ih =>
    simp only [ring_chain, Bool.and_eq_true] at hch
    obtain ⟨it, hl, hn⟩ := load_next (linked_iff.mp hch.1).1
    have hyz : ¬ y = z := fun e => hz (by simp [e])
    cases fuel with
    | zero => simp at hfuel
    | succ f =>
      have hf : r.length < f := by
        simp only [List.length_cons] at hfuel
        omega
      have ih1 := @ih y f hch.2 (fun hm => hz (List.mem_cons_of_mem _ hm)) hf
      simp only [ring_walk, hl, ok_bind, hn, hyz, if_false, ih1]
      rfl

theorem priority_of_dataOf {h h1 : Heap} {b : Nat} (hd : dataOf h1 b = dataOf h b) :
    priority_of h1 b = priority_of h b := by
  simp only [dataOf, priority_of] at hd ⊢
  cases h1c : cell h1 b <;> cases hc : cell h b <;> simp_all [Item_data]

/-- The members of a priority after one more record was allocated. -/
theorem priority_members_step {c c1 : PECache} {k : String} {v pr e : Int}
    (hlen : c1.heap.length = c.heap.length + 1)
    (hdata : ∀ b, dataOf c1.heap b = if b = c.heap.length then some (k, v, pr, e)
      else dataOf c.heap b) (q : Int) :
    priority_members c1 q =
      priority_members c q ++ (if pr = q then [c.heap.length] else []) := by
  unfold priority_members
  rw [hlen, List.range_succ, List.filter_append]
  congr 1
  · apply List.filter_congr
    intro b hb
    have hne : b ≠ c.heap.length := Nat.ne_of_lt (List.mem_range.mp hb)
    have := hdata b
    rw [if_neg hne] at this
    rw [priority_of_dataOf this]
  · have hd := hdata c.heap.length
    rw [if_pos rfl] at hd
    obtain ⟨it, hc, _, _, hp, _⟩ := cell_of_dataOf hd
    by_cases hq : pr = q
    · simp [List.filter, priority_of, hc, hp, hq]
    · simp [List.filter, priority_of, hc, hp, hq]

theorem priority_members_mem {c : PECache} {p : Int} {b : Nat}
    (hb : b ∈ priority_members c p) : b < c.heap.length ∧ priority_of c.heap b = some p := by
  simp only [priority_members, List.mem_filter, List.mem_range, decide_eq_true_eq] at hb
  exact hb

theorem priority_members_length (c : PECache) (p : Int) :
    (priority_members c p).length ≤ c.heap.length := by
  unfold priority_members
  exact (List.length_filter_le _ _).trans (by simp)

theorem ring_in_order_nil {c : PECache} {p : Int} (hm : priority_members c p = []) :
    ring_in_order c p = true ↔ map_find c.mPriorityItems p = none := by
  simp [ring_in_order, hm]

theorem ring_in_order_cons {c : PECache} {p : Int} {head : Nat} {rest : List Nat}
    (hm : priority_members c p = head :: rest) :
    ring_in_order c p = true ↔
      map_find c.mPriorityItems p = some head ∧ is_ring c.heap head rest = true := by
  simp [ring_in_order, hm]

/-- A ring whose members keep their links is still a ring. -/
theorem is_ring_congr {h h1 : Heap} {head : Nat} {rest : List Nat}
    (hn : ∀ b ∈ head :: rest, nextOf h1 b = nextOf h b)
    (hp : ∀ b ∈ head :: rest, prevOf h1 b = prevOf h b)
    (hr : is_ring h head rest = true) : is_ring h1 head rest = true := by
  obtain ⟨hnd, hch⟩ := is_ring_iff.mp hr
  refine is_ring_iff.mpr ⟨hnd, ?_⟩
  rw [ring_chain_congr hn (fun b hb => hp b ?_)]
  · exact hch
  · rcases List.mem_append.mp hb with hb | hb
    · exact List.mem_cons_of_mem _ hb
    · rw [List.mem_singleton.mp hb]
      exact List.mem_cons_self _ _

/-- The state form of `set_new_fresh_ring`. -/
theorem set_new_fresh_ring_state {c : PECache} {key : String}
    {value priority expireTime : Int} (habs : map_find c.mItems key = none)
    (hf : map_find c.mPriorityItems priority = none) :
    ∃ c1, set_new c key value priority expireTime = .ok c1 ∧
      c1.mItems = map_insert c.mItems key c.heap.length ∧
      c1.mExpireItems = map_insert c.mExpireItems expireTime c.heap.length ∧
      c1.mPriorityItems = map_insert c.mPriorityItems priority c.heap.length ∧
      c1.heap.length = c.heap.length + 1 ∧
      (∀ b, dataOf c1.heap b = if b = c.heap.length then
        some (key, value, priority, expireTime) else dataOf c.heap b) ∧
      (∀ b, nextOf c1.heap b = if b = c.heap.length then some (some c.heap.length)
        else nextOf c.heap b) ∧
      (∀ b, prevOf c1.heap b = if b = c.heap.length then some (some c.heap.length)
        else prevOf c.heap b) := by
  obtain ⟨h2, e2, hlen, hdata, hnext, hprev⟩ :=
    @set_new_fresh_ring c key value priority expireTime habs hf
  exact ⟨_, e2, rfl, rfl, rfl, hlen, hdata, hnext, hprev⟩

/-- The state form of `set_new_splice`. -/
theorem set_new_splice_state {c : PECache} {key : String} {value priority expireTime : Int}
    {head t : Nat} (habs : map_find c.mItems key = none)
    (hf : map_find c.mPriorityItems priority = some head)
    (hhp : prevOf c.heap head = some (some t)) (ht : live c.heap t = true) :
    ∃ c1, set_new c key value priority expireTime = .ok c1 ∧
      c1.mItems = map_insert c.mItems key c.heap.length ∧
      c1.mExpireItems = map_insert c.mExpireItems expireTime c.heap.length ∧
      c1.mPriorityItems = c.mPriorityItems ∧
      c1.heap.length = c.heap.length + 1 ∧
      (∀ b, dataOf c1.heap b = if b = c.heap.length then
        some (key, value, priority, expireTime) else dataOf c.heap b) ∧
      (∀ b, nextOf c1.heap b = if b = c.heap.length then some (some head) else
        if b = t then some (some c.heap.length) else nextOf c.heap b) ∧
      (∀ b, prevOf c1.heap b = if b = head then some (some c.heap.length) else
        if b = c.heap.length then some (some t) else prevOf c.heap b) := by
  obtain ⟨h4, e4, hlen, hdata, hnext, hprev⟩ :=
    @set_new_splice c key value priority expireTime head t habs hf hhp ht
  exact ⟨_, e4, rfl, rfl, rfl, hlen, hdata, hnext, hprev⟩

/-- One `set` of a key that is not cached keeps every ring in allocation order. -/
theorem set_new_keeps_order {c : PECache} {key : String} {value priority expireTime : Int}
    (habs : map_find c.mItems key = none) (hinv : ∀ p, ring_in_order c p = true) :
    ∃ c1, set_new c key value priority expireTime = .ok c1 ∧
      (∀ p, ring_in_order c1 p = true) ∧
      c1.heap.length = c.heap.length + 1 ∧
      (∀ b, dataOf c1.heap b = if b = c.heap.length then
        some (key, value, priority, expireTime) else dataOf c.heap b) ∧
      c1.mItems = map_insert c.mItems key c.heap.length := by
  cases hm : priority_members c priority with
  | nil =>
    have hf := (ring_in_order_nil hm).mp (hinv priority)
    obtain ⟨c1, e2, hmi, _, hdirc, hlen, hdata, hnext, hprev⟩ :=
      @set_new_fresh_ring_state c key value priority expireTime habs hf
    refine ⟨c1, e2, ?_, hlen, hdata, hmi⟩
    intro q
    have hstep := @priority_members_step c c1 key value priority expireTime hlen hdata q
    by_cases hq : priority = q
    · subst hq
      rw [hm, if_pos rfl, List.nil_append] at hstep
      refine (ring_in_order_cons hstep).mpr ⟨by rw [hdirc]; exact map_find_insert_self _ _ _ hf, ?_⟩
      refine is_ring_iff.mpr ⟨by simp, ?_⟩
      simp only [ring_chain]
      exact linked_iff.mpr ⟨by rw [hnext, if_pos rfl], by rw [hprev, if_pos rfl]⟩
    · rw [if_neg hq, List.append_nil] at hstep
      have hdir : map_find (map_insert c.mPriorityItems priority c.heap.length) q =
          map_find c.mPriorityItems q := map_find_insert_ne _ _ (Ne.symm hq)
      cases hmq : priority_members c q with
      | nil =>
        rw [hmq] at hstep
        refine (ring_in_order_nil hstep).mpr ?_
        rw [hdirc, hdir]
        exact (ring_in_order_nil hmq).mp (hinv q)
      | cons head rest =>
        rw [hmq] at hstep
        obtain ⟨hfq, hrq⟩ := (ring_in_order_cons hmq).mp (hinv q)
        refine (ring_in_order_cons hstep).mpr ⟨?_, ?_⟩
        · rw [hdirc, hdir, hfq]
        · have hlt : ∀ b ∈ head :: rest, b ≠ c.heap.length := by
            intro b hb
            rw [← hmq] at hb
            exact Nat.ne_of_lt (priority_members_mem hb).1
          refine is_ring_congr (fun b hb => ?_) (fun b hb => ?_) hrq
          · rw [hnext, if_neg (hlt b hb)]
          · rw [hprev, if_neg (hlt b hb)]
  | cons head rest =>
    obtain ⟨hf, hr⟩ := (ring_in_order_cons hm).mp (hinv priority)
    obtain ⟨hnd, hch⟩ := is_ring_iff.mp hr
    obtain ⟨t, ht, htmem⟩ := ring_chain_last hch
    have htl : live c.heap t = true := ring_chain_live hch t htmem
    obtain ⟨c1, e4, hmi, _, hdirc, hlen, hdata, hnext, hprev⟩ :=
      @set_new_splice_state c key value priority expireTime head t habs hf ht htl
    have hmem_lt : ∀ b ∈ head :: rest, b < c.heap.length ∧
        priority_of c.heap b = some priority := by
      intro b hb
      rw [← hm] at hb
      exact priority_members_mem hb
    refine ⟨c1, e4, ?_, hlen, hdata, hmi⟩
    intro q
    have hstep := @priority_members_step c c1 key value priority expireTime hlen hdata q
    by_cases hq : priority = q
    · subst hq
      rw [hm, if_pos rfl, List.cons_append] at hstep
      refine (ring_in_order_cons hstep).mpr ⟨by rw [hdirc]; exact hf, ?_⟩
      have hnot : c.heap.length ∉ head :: rest := fun hmem =>
        Nat.lt_irrefl _ (hmem_lt _ hmem).1
      refine is_ring_iff.mpr ⟨?_, ?_⟩
      · rw [← List.cons_append]
        refine List.Nodup.append hnd (by simp) ?_
        intro b hb1 hb2
        simp only [List.mem_singleton] at hb2
        exact hnot (hb2 ▸ hb1)
      · exact ring_chain_push hch hnd (List.nodup_cons.mp hnd).1 hnot
          (fun e => hnot (by simp [e])) ht hnext hprev
    · rw [if_neg hq, List.append_nil] at hstep
      cases hmq : priority_members c q with
      | nil =>
        rw [hmq] at hstep
        refine (ring_in_order_nil hstep).mpr ?_
        rw [hdirc]
        exact (ring_in_order_nil hmq).mp (hinv q)
      | cons head2 rest2 =>
        rw [hmq] at hstep
        obtain ⟨hfq, hrq⟩ := (ring_in_order_cons hmq).mp (hinv q)
        refine (ring_in_order_cons hstep).mpr ⟨by rw [hdirc]; exact hfq, ?_⟩
        have hq2 : ∀ b ∈ head2 :: rest2, b ≠ c.heap.length ∧ b ≠ t ∧ b ≠ head := by
          intro b hb
          rw [← hmq] at hb
          obtain ⟨hblt, hbp⟩ := priority_members_mem hb
          refine ⟨Nat.ne_of_lt hblt, ?_, ?_⟩
          · intro e
            rw [e, (hmem_lt t htmem).2] at hbp
            exact hq (by simpa using hbp)
          · intro e
            rw [e, (hmem_lt head (by simp)).2] at hbp
            exact hq (by simpa using hbp)
        refine is_ring_congr (fun b hb => ?_) (fun b hb => ?_) hrq
        · rw [hnext, if_neg (hq2 b hb).1, if_neg (hq2 b hb).2.1]
        · rw [hprev, if_neg (hq2 b hb).2.2, if_neg (hq2 b hb).1]

theorem run_set_cons (c : PECache) (s : String × Int × Int × Int)
    (rest : List (String × Int × Int × Int)) :
    run c (sets_ops (s :: rest)) =
      (set_new c s.1 s.2.1 s.2.2.1 s.2.2.2 >>= fun c1 => run c1 (sets_ops rest)) := rfl

theorem dataOf_out_of_range {h : Heap} {i : Nat} (hi : h.length ≤ i) : dataOf h i = none := by
  cases hd : dataOf h i with
  | none => rfl
  | some d =>
    obtain ⟨k, v, p, e⟩ := d
    obtain ⟨it, hc, _⟩ := cell_of_dataOf hd
    exact absurd (cell_lt hc) (Nat.not_lt.mpr hi)

/-- A run of `set` calls on keys that are neither cached nor repeated completes and keeps
every ring in allocation order; the records are allocated in call order. -/
theorem sets_keep_order (sets : List (String × Int × Int × Int)) :
    ∀ c : PECache, (∀ p, ring_in_order c p = true) →
      (∀ s ∈ sets, map_find c.mItems s.1 = none) → (sets.map Prod.fst).Nodup →
      ∃ c1, run c (sets_ops sets) = .ok c1 ∧ (∀ p, ring_in_order c1 p = true) ∧
        c1.heap.length = c.heap.length + sets.length ∧
        (∀ i, i < sets.length → dataOf c1.heap (c.heap.length + i) = sets[i]?) ∧
        (∀ b, b < c.heap.length → dataOf c1.heap b = dataOf c.heap b) := by
  induction sets with
  | nil =>
    intro c hinv _ _
    exact ⟨c, rfl, hinv, rfl, fun i hi => absurd hi (Nat.not_lt_zero i), fun _ _ => rfl⟩
  | cons s rest ih =>
    intro c hinv habs hnd
    obtain ⟨k, v, p, e⟩ := s
    simp only [List.map_cons, List.nodup_cons] at hnd
    have hk : map_find c.mItems k = none := habs (k, v, p, e) (List.mem_cons_self _ _)
    obtain ⟨c2, e2, hinv2, hlen2, hdata2, hmi2⟩ :=
      @set_new_keeps_order c k v p e hk hinv
    have habs2 : ∀ s2 ∈ rest, map_find c2.mItems s2.1 = none := by
      intro s2 hs2
      have hne : s2.1 ≠ k := by
        intro heq
        exact hnd.1 (heq ▸ List.mem_map_of_mem Prod.fst hs2)
      rw [hmi2, map_find_insert_ne _ _ hne]
      exact habs s2 (List.mem_cons_of_mem _ hs2)
    obtain ⟨c1, e1, hinv1, hlen1, hdata1, hkeep1⟩ := ih c2 hinv2 habs2 hnd.2
    refine ⟨c1, ?_, hinv1, ?_, ?_, ?_⟩
    · rw [run_set_cons]
      simp only [e2, ok_bind]
      exact e1
    · rw [hlen1, hlen2]
      simp only [List.length_cons]
      omega
    · intro i hi
      cases i with
      | zero =>
        rw [Nat.add_zero, hkeep1 _ (by omega), hdata2, if_pos rfl]
        simp
      | succ j =>
        have hj : j < rest.length := by
          simp only [List.length_cons] at hi
          omega
        have := hdata1 j hj
        rw [hlen2] at this
        rw [show c.heap.length + (j + 1) = c.heap.length + 1 + j by omega, this]
        simp
    · intro b hb
      rw [hkeep1 b (by omega), hdata2, if_neg (Nat.ne_of_lt hb)]

theorem ring_in_order_new (capacity : Int) (p : Int) : ring_in_order (new capacity) p = true := by
  simp [ring_in_order, priority_members, new, map_find]

/-- In a state with every ring in allocation order the walk of `print` from the anchor
of a priority lists the records of that priority in allocation order. -/
theorem ring_of_in_order {c : PECache} {p : Int} {head : Nat}
    (hinv : ring_in_order c p = true) (hf : map_find c.mPriorityItems p = some head) :
    ring c p = .ok (priority_members c p) := by
  cases hm : priority_members c p with
  | nil =>
    have := (ring_in_order_nil hm).mp hinv
    rw [this] at hf
    cases hf
  | cons head2 rest =>
    obtain ⟨hf2, hr⟩ := (ring_in_order_cons hm).mp hinv
    obtain ⟨hnd, hch⟩ := is_ring_iff.mp hr
    have hlen := priority_members_length c p
    rw [hm, List.length_cons] at hlen
    simp only [ring, map_at, hf2, ok_bind]
    exact ring_walk_chain hch (List.nodup_cons.mp hnd).1 (by omega)

/-- C16: a `set` of a key that is not cached, with an `expireTime` that has no Expiry
Index entry, enters the new record (the next cell of the free store) in the Key Index and
the Expiry Index. When its priority has no ring the record becomes the anchor of a
one-element ring linked to itself; when the priority has the well-formed ring
`head, rest` the anchor stays `head`, the ring becomes `head, rest, new` and the new
record is the tail (`head->prev`). Consequently a run of `set` calls on distinct keys from
the empty cache completes, allocates the records in call order, and the walk of `print`
from the anchor of every priority lists the records of that priority in call order. -/
theorem set_of_absent_key_is_appended :
    (∀ (c : PECache) (key : String) (value priority expireTime : Int),
      map_find c.mItems key = none → map_find c.mExpireItems expireTime = none →
      (map_find c.mPriorityItems priority = none →
        ∃ c1, set_new c key value priority expireTime = .ok c1 ∧
          map_find c1.mItems key = some c.heap.length ∧
          map_find c1.mExpireItems expireTime = some c.heap.length ∧
          dataOf c1.heap c.heap.length = some (key, value, priority, expireTime) ∧
          map_find c1.mPriorityItems priority = some c.heap.length ∧
          is_ring c1.heap c.heap.length [] = true) ∧
      (∀ head rest, map_find c.mPriorityItems priority = some head →
        is_ring c.heap head rest = true →
        ∃ c1, set_new c key value priority expireTime = .ok c1 ∧
          map_find c1.mItems key = some c.heap.length ∧
          map_find c1.mExpireItems expireTime = some c.heap.length ∧
          dataOf c1.heap c.heap.length = some (key, value, priority, expireTime) ∧
          map_find c1.mPriorityItems priority = some head ∧
          is_ring c1.heap head (rest ++ [c.heap.length]) = true ∧
          prevOf c1.heap head = some (some c.heap.length))) ∧
    (∀ (sets : List (String × Int × Int × Int)) (capacity : Int),
      (sets.map Prod.fst).Nodup →
      ∃ c1, run (new capacity) (sets_ops sets) = .ok c1 ∧
        (∀ i, dataOf c1.heap i = sets[i]?) ∧
        ∀ p, ring_in_order c1 p = true ∧
          (map_find c1.mPriorityItems p ≠ none → ring c1 p = .ok (priority_members c1 p))) := by
  refine ⟨?_, ?_⟩
  · intro c key value priority expireTime habs hexp
    refine ⟨?_, ?_⟩
    · intro hf
      obtain ⟨c1, e1, hmi, hme, hdir, _, hdata, hnext, hprev⟩ :=
        @set_new_fresh_ring_state c key value priority expireTime habs hf
      refine ⟨c1, e1, ?_, ?_, ?_, ?_, ?_⟩
      · rw [hmi]; exact map_find_insert_self _ _ _ habs
      · rw [hme]; exact map_find_insert_self _ _ _ hexp
      · rw [hdata, if_pos rfl]
      · rw [hdir]; exact map_find_insert_self _ _ _ hf
      · refine is_ring_iff.mpr ⟨by simp, ?_⟩
        simp only [ring_chain]
        exact linked_iff.mpr ⟨by rw [hnext, if_pos rfl], by rw [hprev, if_pos rfl]⟩
    · intro head rest hf hr
      obtain ⟨hnd, hch⟩ := is_ring_iff.mp hr
      obtain ⟨t, ht, htmem⟩ := ring_chain_last hch
      have hlive := ring_chain_live hch
      obtain ⟨c1, e1, hmi, hme, hdir, _, hdata, hnext, hprev⟩ :=
        @set_new_splice_state c key value priority expireTime head t habs hf ht
          (hlive t htmem)
      have hnot : c.heap.length ∉ head :: rest := fun hmem =>
        Nat.lt_irrefl _ (live_lt (hlive _ hmem))
      refine ⟨c1, e1, ?_, ?_, ?_, ?_, ?_, ?_⟩
      · rw [hmi]; exact map_find_insert_self _ _ _ habs
      · rw [hme]; exact map_find_insert_self _ _ _ hexp
      · rw [hdata, if_pos rfl]
      · rw [hdir]; exact hf
      · refine is_ring_iff.mpr ⟨?_, ?_⟩
        · rw [← List.cons_append]
          refine List.Nodup.append hnd (by simp) ?_
          intro b hb1 hb2
          simp only [List.mem_singleton] at hb2
          exact hnot (hb2 ▸ hb1)
        · exact ring_chain_push hch hnd (List.nodup_cons.mp hnd).1 hnot
            (fun e => hnot (by simp [e])) ht hnext hprev
      · rw [hprev, if_pos rfl]
  · intro sets capacity hnd
    obtain ⟨c1, e1, hinv, hlen, hdata, _⟩ := sets_keep_order sets (new capacity)
      (ring_in_order_new capacity) (fun _ _ => rfl) hnd
    have hlen0 : c1.heap.length = sets.length := by
      rw [hlen]
      simp [new]
    refine ⟨c1, e1, ?_, fun p => ⟨hinv p, ?_⟩⟩
    · intro i
      by_cases hi : i < sets.length
      · have := hdata i hi
        simp only [new, List.length_nil, Nat.zero_add] at this
        exact this
      · rw [dataOf_out_of_range (by omega)]
        exact (List.getElem?_eq_none (by omega)).symm
    · intro hne
      cases hf : map_find c1.mPriorityItems p with
      | none => exact absurd hf hne
      | some head => exact ring_of_in_order (hinv p) hf

/-- C16, witness: in the state of `main`, `set("F", 1, 9, 16)` opens ring 9 with `F`
(cell 5) alone, `set("F", 1, 5, 16)` turns the ring `A, C, D` of priority 5 into
`A, C, D, F`, and the five `set` calls of `main` lead to a ring of priority 5 that reads
`A, C, D` (cells 0, 2, 3). -/
theorem set_of_absent_key_is_appended_witness :
    (∃ c1, set_new (main_state 5 INT_MAX) "F" 1 9 16 = .ok c1 ∧
      map_find c1.mItems "F" = some 5 ∧ map_find c1.mExpireItems 16 = some 5 ∧
      map_find c1.mPriorityItems 9 = some 5 ∧ is_ring c1.heap 5 [] = true) ∧
    (∃ c1, set_new (main_state 5 INT_MAX) "F" 1 5 16 = .ok c1 ∧
      map_find c1.mItems "F" = some 5 ∧ map_find c1.mExpireItems 16 = some 5 ∧
      map_find c1.mPriorityItems 5 = some 0 ∧ is_ring c1.heap 0 [2, 3, 5] = true ∧
      prevOf c1.heap 0 = some (some 5)) ∧
    ring (main_state 5 INT_MAX) 5 = .ok [0, 2, 3] :=
  have ⟨c1, h1, h2, h3, _, h5, h6⟩ :=
    (set_of_absent_key_is_appended.1 (main_state 5 INT_MAX) "F" 1 9 16 (by decide)
      (by decide)).1 (by decide)
  have ⟨c2, k1, k2, k3, _, k5, k6, k7⟩ :=
    (set_of_absent_key_is_appended.1 (main_state 5 INT_MAX) "F" 1 5 16 (by decide)
      (by decide)).2 0 [2, 3] (by decide) (by decide)
  have ⟨c3, r1, _, r3⟩ := set_of_absent_key_is_appended.2
    [("A", 12, 5, 11), ("B", 12, 4, 12), ("C", 12, 5, 13), ("D", 12, 5, 14), ("E", 12, 6, 15)]
    5 (by decide)
  have hc3 : c3 = main_state 5 INT_MAX :=
    Except.ok.inj (r1.symm.trans (by decide))
  ⟨⟨c1, h1, h2, h3, h5, h6⟩, ⟨c2, k1, k2, k3, k5, k6, k7⟩,
    ((hc3 ▸ r3 5).2 (by decide)).trans (by decide)⟩

end PECache
